import Mathlib

set_option maxRecDepth 8000

/-!
Verification of the BPE tokenizer engine (`tokenizer_BPE.py`, `Byte_level_BPE.py`).

Python dictionaries are modelled as insertion-ordered association lists
(`List (κ × β)`): `bump` models `defaultdict[k] += v`, `dictSet` models
`d[k] = v` (overwrite in place, else append), `aLookup` models `d.get(k)`.
Symbols of the character-alphabet variant are Python strings, modelled as
`List Char`; symbols of the byte-alphabet variant are Python `bytes`,
modelled as `List Nat`.  The merged symbol of a pair is the concatenation
of its two constituents in both variants, so the whole merge engine is
developed generically over symbols `List β`.

`unicodedata.normalize("NFKC", ·)` composed with `str.lower()` is external
library code (the spec declares normalization an external collaborator),
so it is passed as an abstract function `nl`; the concrete theorems
instantiate it with the identity, which is what NFKC + lower computes on
the lowercase-ASCII inputs used there.  `str.strip()` and
`re.sub(r"\s+", " ", ·)` are modelled concretely over Python's whitespace
set.
-/

/-- Python `str` whitespace predicate (the set used by `str.split()`,
`str.strip()` and `re`'s `\s` on strings). -/
def pyIsSpace (c : Char) : Bool :=
  c.toNat ∈ [9, 10, 11, 12, 13, 28, 29, 30, 31, 32, 133, 160, 0x1680,
    0x2000, 0x2001, 0x2002, 0x2003, 0x2004, 0x2005, 0x2006, 0x2007, 0x2008,
    0x2009, 0x200A, 0x2028, 0x2029, 0x202F, 0x205F, 0x3000]

/-- `str.strip()`: drop leading and trailing whitespace. -/
def pyStrip (l : List Char) : List Char :=
  ((l.dropWhile pyIsSpace).reverse.dropWhile pyIsSpace).reverse

/-- Auxiliary state machine for `re.sub(r"\s+", " ", ·)`: the flag records
whether we are inside a whitespace run that has already emitted its space. -/
def collapseAux : Bool → List Char → List Char
  | _, [] => []
  | inRun, c :: r =>
    if pyIsSpace c then
      if inRun then collapseAux true r else ' ' :: collapseAux true r
    else c :: collapseAux false r

/-- `re.sub(r"\s+", " ", text)`: collapse each whitespace run to one space. -/
def collapseSpaces (l : List Char) : List Char := collapseAux false l

/-- `normalize` of both BPE classes: NFKC + lower (the abstract `nl`),
then `strip()`, then collapse whitespace runs. -/
def pyNormalize (nl : List Char → List Char) (t : List Char) : List Char :=
  collapseSpaces (pyStrip (nl t))

/-- `str.split()` with no separator: split on whitespace runs, no empties. -/
def pySplit : List Char → List (List Char)
  | [] => []
  | c :: r =>
    if pyIsSpace c then pySplit r
    else
      match r with
      | [] => [[c]]
      | d :: _ =>
        if pyIsSpace d then [c] :: pySplit r
        else
          match pySplit r with
          | [] => [[c]]
          | w :: ws => (c :: w) :: ws

/-- `dict.get k`: first (and only) binding of `k` in the association list. -/
def aLookup [DecidableEq κ] (l : List (κ × β)) (k : κ) : Option β :=
  match l with
  | [] => none
  | (k', v) :: r => if k' = k then some v else aLookup r k

/-- `dict.get k default`. -/
def aLookupD [DecidableEq κ] (l : List (κ × β)) (k : κ) (d : β) : β :=
  (aLookup l k).getD d

/-- `defaultdict(int)` increment `d[k] += n`: update in place, else append. -/
def bump [DecidableEq κ] (l : List (κ × Nat)) (k : κ) (n : Nat) : List (κ × Nat) :=
  match l with
  | [] => [(k, n)]
  | (k', v) :: r => if k' = k then (k', v + n) :: r else (k', v) :: bump r k n

/-- `d[k] = v` on a Python dict: overwrite in place, else append. -/
def dictSet [DecidableEq κ] (l : List (κ × β)) (k : κ) (v : β) : List (κ × β) :=
  match l with
  | [] => [(k, v)]
  | (k', v') :: r => if k' = k then (k', v) :: r else (k', v') :: dictSet r k v

/-- Adjacent pairs of a symbol sequence, leftmost first
(`(word[i], word[i+1])` for `i in range(len(word)-1)`). -/
def adjPairs : List σ → List (σ × σ)
  | a :: b :: r => (a, b) :: adjPairs (b :: r)
  | _ => []

/-- Accumulate the pair counts of one word with multiplicity `freq`
(the inner loop of `_get_pair_stats`). -/
def wordPairBump [DecidableEq σ] (freq : Nat) :
    List σ → List ((σ × σ) × Nat) → List ((σ × σ) × Nat)
  | a :: b :: rest, acc => wordPairBump freq (b :: rest) (bump acc (a, b) freq)
  | _, acc => acc

/-- `_get_pair_stats`: count adjacent symbol pairs over all word forms,
in dict insertion order. -/
def pairStats [DecidableEq σ] (vocab : List (List σ × Nat)) : List ((σ × σ) × Nat) :=
  vocab.foldl (fun acc wf => wordPairBump wf.2 wf.1 acc) []

/-- Python `max(d, key=d.get)` together with its value: iterate in insertion
order, replace the current best only on a strictly greater value, so the
first key attaining the maximum wins. -/
def pyMaxEntry (l : List (κ × Nat)) : Option (κ × Nat) :=
  match l with
  | [] => none
  | e :: rest => some (rest.foldl (fun b e' => if b.2 < e'.2 then e' else b) e)

/-- One rewrite pass of `_merge_vocab` / the inner `while i < len(symbols)`
loop: replace every non-overlapping left-to-right occurrence of the pair
`(a, b)` by the concatenated symbol `a ++ b`. -/
def mergePass [DecidableEq β] (a b : List β) : List (List β) → List (List β)
  | x :: y :: rest =>
    if x = a ∧ y = b then (a ++ b) :: mergePass a b rest
    else x :: mergePass a b (y :: rest)
  | l => l

/-- `_merge_vocab`: rewrite every word form and re-accumulate frequencies. -/
def mergeVocab [DecidableEq β] (a b : List β) (vocab : List (List (List β) × Nat)) :
    List (List (List β) × Nat) :=
  vocab.foldl (fun acc wf => bump acc (mergePass a b wf.1) wf.2) []

/-- The training merge loop of `train`: up to `fuel = num_merges` iterations,
stop early when no pairs remain or the best pair has frequency < 2.  The
already-recorded merges `ms` are carried along because `train` appends to
`self.merges` without resetting it. -/
def trainLoop [DecidableEq β] :
    Nat → List (List (List β) × Nat) → List (List β × List β) →
      List (List (List β) × Nat) × List (List β × List β)
  | 0, vocab, ms => (vocab, ms)
  | fuel + 1, vocab, ms =>
    match pyMaxEntry (pairStats vocab) with
    | none => (vocab, ms)
    | some (p, v) =>
      if v < 2 then (vocab, ms)
      else trainLoop fuel (mergeVocab p.1 p.2 vocab) (ms ++ [p])

/-- `{pair: rank for rank, pair in enumerate(self.merges)}`: dict
comprehension, a later duplicate pair overwrites the earlier rank. -/
def buildRanks [DecidableEq κ] (ms : List κ) : List (κ × Nat) :=
  ms.enum.foldl (fun d ip => dictSet d ip.2 ip.1) []

/-- Set insertion (`set.add`): append the element unless already present. -/
def insSym [DecidableEq σ] (a : List σ) (x : σ) : List σ :=
  if x ∈ a then a else a ++ [x]

/-- Collect the distinct surviving symbols of all word forms. -/
def collectSyms [DecidableEq σ] (vocab : List (List σ × Nat)) : List σ :=
  vocab.foldl (fun acc wf => wf.1.foldl insSym acc) []

/-- Lexicographic comparison of sequences by element order: Python `<=` on
`str` (code points) and on `bytes` (byte values). -/
def lexLe [LinearOrder β] : List β → List β → Prop
  | [], _ => True
  | _ :: _, [] => False
  | a :: as, b :: bs => a < b ∨ (a = b ∧ lexLe as bs)

instance [LinearOrder β] : DecidableRel (lexLe (β := β)) := fun a b => by
  induction a generalizing b with
  | nil => exact isTrue (by cases b <;> trivial)
  | cons x xs ih =>
    cases b with
    | nil => exact isFalse (by simp [lexLe])
    | cons y ys => exact @instDecidableOr _ _ _ (@instDecidableAnd _ _ _ (ih ys))

instance [LinearOrder β] : IsTotal (List β) lexLe where
  total := by
    intro a
    induction a with
    | nil => intro b; left; trivial
    | cons x as ih =>
      intro b
      cases b with
      | nil => right; trivial
      | cons y bs =>
        rcases lt_trichotomy x y with h | h | h
        · left; exact Or.inl h
        · subst h
          rcases ih bs with h2 | h2
          · exact Or.inl (Or.inr ⟨rfl, h2⟩)
          · exact Or.inr (Or.inr ⟨rfl, h2⟩)
        · right; exact Or.inl h

instance [LinearOrder β] : IsTrans (List β) lexLe where
  trans := by
    intro a
    induction a with
    | nil => intro b c _ _; trivial
    | cons x as ih =>
      intro b c hab hbc
      cases b with
      | nil => exact absurd hab (by simp [lexLe])
      | cons y bs =>
        cases c with
        | nil => exact absurd hbc (by simp [lexLe])
        | cons z cs =>
          rcases hab with hab | ⟨hab, hab2⟩
          · rcases hbc with hbc | ⟨hbc, hbc2⟩
            · exact Or.inl (lt_trans hab hbc)
            · subst hbc; exact Or.inl hab
          · subst hab
            rcases hbc with hbc | ⟨hbc, hbc2⟩
            · exact Or.inl hbc
            · subst hbc
              exact Or.inr ⟨rfl, ih bs cs hab2 hbc2⟩

/-- `for idx, token in enumerate(vocab_list): token_to_id[token] = idx`. -/
def buildT2I [DecidableEq τ] (toks : List τ) : List (τ × Nat) :=
  toks.enum.foldl (fun d it => dictSet d it.2 it.1) []

/-- `for idx, token in enumerate(vocab_list): id_to_token[idx] = token`. -/
def buildI2T (toks : List τ) : List (Nat × τ) :=
  toks.enum.foldl (fun d it => dictSet d it.1 it.2) []

instance [DecidableEq ε] [DecidableEq α] : DecidableEq (Except ε α) := fun x y =>
  match x, y with
  | .error a, .error b =>
    if h : a = b then isTrue (by rw [h]) else isFalse (by simp [h])
  | .ok a, .ok b =>
    if h : a = b then isTrue (by rw [h]) else isFalse (by simp [h])
  | .error _, .ok _ => isFalse (by simp)
  | .ok _, .error _ => isFalse (by simp)

/-- The end-of-word marker `"</w>"` as a character list. -/
def eowL : List Char := ['<', '/', 'w', '>']

def padL : List Char := "<pad>".data
def unkL : List Char := "<unk>".data
def bosL : List Char := "<bos>".data
def eosL : List Char := "<eos>".data

/-- `SPECIAL_TOKENS` of the character-alphabet variant. -/
def CHAR_SPECIALS : List (List Char) := [padL, unkL, bosL, eosL]

/-- Persistent state of a `BPE_Tokenizer` instance (character variant). -/
structure CharState where
  num_merges : Nat
  token_to_id : List (List Char × Nat)
  id_to_token : List (Nat × List Char)
  bpe_vocab : List (List (List Char) × Nat)
  merges : List (List Char × List Char)
  pair2rank : List ((List Char × List Char) × Nat)
deriving Repr, DecidableEq

/-- `BPE_Tokenizer.__init__(num_merges)`. -/
def charInit (n : Nat) : CharState :=
  { num_merges := n, token_to_id := [], id_to_token := [],
    bpe_vocab := [], merges := [], pair2rank := [] }

/-- `list(word) + ["</w>"]`: a word as character symbols plus the marker. -/
def charWordSyms (w : List Char) : List (List Char) :=
  w.map (fun c => [c]) ++ [eowL]

/-- `BPE_Tokenizer._get_bpe_vocab_from_corpus`. -/
def charCorpusVocab (nl : List Char → List Char) (corpus : List (List Char)) :
    List (List (List Char) × Nat) :=
  corpus.foldl
    (fun acc line =>
      (pySplit (pyNormalize nl line)).foldl
        (fun a w => if w = [] then a else bump a (charWordSyms w) 1) acc)
    []

/-- `BPE_Tokenizer.train`. -/
def charTrain (nl : List Char → List Char) (st : CharState)
    (corpus : List (List Char)) : CharState :=
  let vocab0 := charCorpusVocab nl corpus
  let vm := trainLoop st.num_merges vocab0 st.merges
  let syms := List.insertionSort lexLe (collectSyms vm.1)
  let vl := CHAR_SPECIALS ++ syms
  { num_merges := st.num_merges, token_to_id := buildT2I vl,
    id_to_token := buildI2T vl, bpe_vocab := vm.1, merges := vm.2,
    pair2rank := buildRanks vm.2 }

/-- The candidate triples `(rank, i, pair)` of `_encode_word` /
`_encode_bytes`, with `i` starting at the given offset. -/
def candTriples [DecidableEq β] (p2r : List ((List β × List β) × Nat)) :
    Nat → List (List β) → List (Nat × Nat × (List β × List β))
  | i, a :: b :: rest =>
    (match aLookup p2r (a, b) with
     | some r => [(r, i, (a, b))]
     | none => []) ++ candTriples p2r (i + 1) (b :: rest)
  | _, _ => []

/-- Python `min(candidates)` on `(rank, i, pair)` triples: lexicographic,
first minimum kept.  Distinct triples always differ in `i`, so the
comparison never reaches the pair component. -/
def pyMinCand : List (Nat × Nat × π) → Option (Nat × Nat × π)
  | [] => none
  | e :: rest =>
    some (rest.foldl
      (fun b e' => if e'.1 < b.1 ∨ (e'.1 = b.1 ∧ e'.2.1 < b.2.1) then e' else b) e)

/-- The `while True` loop of `_encode_word` / `_encode_bytes`, with explicit
fuel.  Each productive iteration shortens the sequence, so fuel equal to the
initial length always reaches the loop's own exit condition. -/
def segLoopF [DecidableEq β] (p2r : List ((List β × List β) × Nat)) :
    Nat → List (List β) → List (List β)
  | 0, s => s
  | fuel + 1, s =>
    match pyMinCand (candTriples p2r 0 s) with
    | none => s
    | some c => segLoopF p2r fuel (mergePass c.2.2.1 c.2.2.2 s)

/-- The body of `_encode_word` / `_encode_bytes` after the initial symbols
are formed: early return on an empty rank table, else the merge loop. -/
def segMerge [DecidableEq β] (p2r : List ((List β × List β) × Nat))
    (s : List (List β)) : List (List β) :=
  if p2r = [] then s else segLoopF p2r s.length s

/-- `BPE_Tokenizer._encode_word`. -/
def charEncodeWord (st : CharState) (w : List Char) : List (List Char) :=
  segMerge st.pair2rank (charWordSyms w)

/-- `BPE_Tokenizer.encode`, with the explicit `ValueError` on an empty
vocabulary and the `KeyError` Python would raise if `"<unk>"` were absent. -/
def charEncode (nl : List Char → List Char) (st : CharState)
    (text : List Char) : Except String (List Nat) :=
  if st.token_to_id = [] then
    .error "Vocabulary is empty. Call train(corpus) first."
  else
    let words := (pySplit (pyNormalize nl text)).filter (fun w => decide (¬w = []))
    let toks := words.foldl (fun acc w => acc ++ charEncodeWord st w) []
    let allToks := bosL :: toks ++ [eosL]
    match aLookup st.token_to_id unkL with
    | none => .error "KeyError"
    | some unkId => .ok (allToks.map (fun t => aLookupD st.token_to_id t unkId))

/-- Word reassembly loop of `BPE_Tokenizer.decode`: accumulate characters,
close a word at each token carrying the `"</w>"` suffix (Python
`tok[:-4]` is `take (length - 4)`), emit a leftover buffer at the end. -/
def reconWords : List Char → List (List Char) → List (List Char)
  | cur, [] => if cur = [] then [] else [cur]
  | cur, t :: ts =>
    if eowL.isSuffixOf t then (cur ++ t.take (t.length - 4)) :: reconWords [] ts
    else reconWords (cur ++ t) ts

/-- `" ".join(words)`. -/
def joinSpace : List (List Char) → List Char
  | [] => []
  | [w] => w
  | w :: ws => w ++ ' ' :: joinSpace ws

/-- `BPE_Tokenizer.decode`. -/
def charDecode (st : CharState) (ids : List Nat) : Except String (List Char) :=
  if st.id_to_token = [] then
    .error "Vocabulary is empty. Train the tokenizer first."
  else
    let toks := ids.map (fun i => aLookupD st.id_to_token i unkL)
    let kept := toks.filter (fun t => decide (¬t ∈ CHAR_SPECIALS))
    .ok (joinSpace (reconWords [] kept))

/-- A token of the byte-alphabet variant: Python `str` special tokens and
`bytes` symbols are distinct types and never compare equal. -/
inductive BTok where
  | sp : String → BTok
  | bs : List Nat → BTok
deriving Repr, DecidableEq

/-- `SPECIAL_TOKENS` of the byte-alphabet variant (Python `str` values). -/
def BYTE_SPECIALS : List BTok :=
  [BTok.sp "<pad>", BTok.sp "<unk>", BTok.sp "<bos>", BTok.sp "<eos>"]

/-- Persistent state of a `ByteBPE_Tokenizer` instance. -/
structure ByteState where
  num_merges : Nat
  token_to_id : List (BTok × Nat)
  id_to_token : List (Nat × BTok)
  bpe_vocab : List (List (List Nat) × Nat)
  merges : List (List Nat × List Nat)
  pair2rank : List ((List Nat × List Nat) × Nat)
deriving Repr, DecidableEq

/-- `ByteBPE_Tokenizer.__init__(num_merges)`. -/
def byteInit (n : Nat) : ByteState :=
  { num_merges := n, token_to_id := [], id_to_token := [],
    bpe_vocab := [], merges := [], pair2rank := [] }

/-- UTF-8 encoding of one scalar value (Lean `Char` is always a valid
Unicode scalar, as is every character of a Python `str` that
`str.encode("utf-8")` accepts). -/
def utf8EncChar (c : Char) : List Nat :=
  let n := c.toNat
  if n < 128 then [n]
  else if n < 2048 then [192 + n / 64, 128 + n % 64]
  else if n < 65536 then
    [224 + n / 4096, 128 + n / 64 % 64, 128 + n % 64]
  else
    [240 + n / 262144, 128 + n / 4096 % 64, 128 + n / 64 % 64, 128 + n % 64]

/-- `text.encode("utf-8")` as a byte list. -/
def utf8Enc (t : List Char) : List Nat := (t.map utf8EncChar).flatten

/-- The UTF-8 replacement character U+FFFD. -/
def replC : Char := Char.ofNat 0xFFFD

/-- `bytes.decode("utf-8", errors="replace")`: strict UTF-8 decoding with
one U+FFFD substituted per maximal invalid subpart, never failing. -/
def utf8DecR : List Nat → List Char
  | [] => []
  | b0 :: r0 =>
    if b0 < 128 then Char.ofNat b0 :: utf8DecR r0
    else if 194 ≤ b0 ∧ b0 ≤ 223 then
      match r0 with
      | [] => [replC]
      | b1 :: r1 =>
        if 128 ≤ b1 ∧ b1 ≤ 191 then
          Char.ofNat ((b0 - 192) * 64 + (b1 - 128)) :: utf8DecR r1
        else replC :: utf8DecR (b1 :: r1)
    else if 224 ≤ b0 ∧ b0 ≤ 239 then
      match r0 with
      | [] => [replC]
      | b1 :: r1 =>
        if (if b0 = 224 then 160 ≤ b1 ∧ b1 ≤ 191
            else if b0 = 237 then 128 ≤ b1 ∧ b1 ≤ 159
            else 128 ≤ b1 ∧ b1 ≤ 191) then
          match r1 with
          | [] => [replC]
          | b2 :: r2 =>
            if 128 ≤ b2 ∧ b2 ≤ 191 then
              Char.ofNat ((b0 - 224) * 4096 + (b1 - 128) * 64 + (b2 - 128)) ::
                utf8DecR r2
            else replC :: utf8DecR (b2 :: r2)
        else replC :: utf8DecR (b1 :: r1)
    else if 240 ≤ b0 ∧ b0 ≤ 244 then
      match r0 with
      | [] => [replC]
      | b1 :: r1 =>
        if (if b0 = 240 then 144 ≤ b1 ∧ b1 ≤ 191
            else if b0 = 244 then 128 ≤ b1 ∧ b1 ≤ 143
            else 128 ≤ b1 ∧ b1 ≤ 191) then
          match r1 with
          | [] => [replC]
          | b2 :: r2 =>
            if 128 ≤ b2 ∧ b2 ≤ 191 then
              match r2 with
              | [] => [replC]
              | b3 :: r3 =>
                if 128 ≤ b3 ∧ b3 ≤ 191 then
                  Char.ofNat ((b0 - 240) * 262144 + (b1 - 128) * 4096 +
                    (b2 - 128) * 64 + (b3 - 128)) :: utf8DecR r3
                else replC :: utf8DecR (b3 :: r3)
            else replC :: utf8DecR (b2 :: r2)
        else replC :: utf8DecR (b1 :: r1)
    else replC :: utf8DecR r0

/-- `ByteBPE_Tokenizer._get_bpe_vocab_from_corpus`. -/
def byteCorpusVocab (nl : List Char → List Char) (corpus : List (List Char)) :
    List (List (List Nat) × Nat) :=
  corpus.foldl
    (fun acc line =>
      let syms := (utf8Enc (pyNormalize nl line)).map (fun b => [b])
      if syms = [] then acc else bump acc syms 1)
    []

/-- `ByteBPE_Tokenizer.train`. -/
def byteTrain (nl : List Char → List Char) (st : ByteState)
    (corpus : List (List Char)) : ByteState :=
  let vocab0 := byteCorpusVocab nl corpus
  let vm := trainLoop st.num_merges vocab0 st.merges
  let syms := List.insertionSort lexLe (collectSyms vm.1)
  let vl := BYTE_SPECIALS ++ syms.map BTok.bs
  { num_merges := st.num_merges, token_to_id := buildT2I vl,
    id_to_token := buildI2T vl, bpe_vocab := vm.1, merges := vm.2,
    pair2rank := buildRanks vm.2 }

/-- `ByteBPE_Tokenizer._encode_bytes`. -/
def byteEncodeBytes (st : ByteState) (bs : List Nat) : List (List Nat) :=
  segMerge st.pair2rank (bs.map (fun b => [b]))

/-- `ByteBPE_Tokenizer.encode`. -/
def byteEncode (nl : List Char → List Char) (st : ByteState)
    (text : List Char) : Except String (List Nat) :=
  if st.token_to_id = [] then
    .error "Vocabulary is empty. Call train(corpus) first."
  else
    let toks := byteEncodeBytes st (utf8Enc (pyNormalize nl text))
    let allToks := BTok.sp "<bos>" :: toks.map BTok.bs ++ [BTok.sp "<eos>"]
    match aLookup st.token_to_id (BTok.sp "<unk>") with
    | none => .error "KeyError"
    | some unkId => .ok (allToks.map (fun t => aLookupD st.token_to_id t unkId))

/-- Extract the byte contents of the kept tokens of `ByteBPE_Tokenizer.decode`;
a surviving `str` token would make Python's `b"".join` raise `TypeError`. -/
def tokBytes : List BTok → Option (List (List Nat))
  | [] => some []
  | BTok.sp _ :: _ => none
  | BTok.bs b :: r => (tokBytes r).map (fun bs => b :: bs)

/-- `ByteBPE_Tokenizer.decode`. -/
def byteDecode (st : ByteState) (ids : List Nat) : Except String (List Char) :=
  if st.id_to_token = [] then
    .error "Vocabulary is empty. Train the tokenizer first."
  else
    let toks := ids.map (fun i => aLookupD st.id_to_token i (BTok.sp "<unk>"))
    let kept := toks.filter (fun t => decide (¬t ∈ BYTE_SPECIALS))
    match tokBytes kept with
    | none => .error "TypeError"
    | some pieces => .ok (utf8DecR pieces.flatten)

/-- Boolean form of `lexLe`. -/
def lexLeB [LinearOrder β] (a b : List β) : Bool := decide (lexLe a b)

/-- Lexicographic order on a pair over its two symbol contents
(Python tuple comparison). -/
def pairLeB (p q : List Char × List Char) : Bool :=
  if p.1 = q.1 then lexLeB p.2 q.2 else lexLeB p.1 q.1

/-- The largest frequency occurring in a pair-statistics mapping. -/
def maxVal (stats : List (κ × Nat)) : Nat :=
  stats.foldl (fun a e => max a e.2) 0

/-- Modelled from the spec: "when multiple pairs share the maximum
frequency, select the one that is lexicographically smallest over its two
symbol contents" (section 4.2, step 3).  This selection rule is absent
from the source, which uses `max(pair_counts, key=pair_counts.get)`. -/
def lexSmallestMaxPair (stats : List ((List Char × List Char) × Nat)) :
    Option (List Char × List Char) :=
  match stats.filter (fun e => decide (e.2 = maxVal stats)) with
  | [] => none
  | e :: rest =>
    some (rest.foldl (fun b e' => if pairLeB e'.1 b then e'.1 else b) e.1)

/-- Distinct adjacent pairs of the sequence that appear in the rank table,
in order of first occurrence. -/
def presentPairs [DecidableEq β] (p2r : List ((List β × List β) × Nat))
    (s : List (List β)) : List (List β × List β) :=
  ((adjPairs s).filter (fun p => decide (¬aLookup p2r p = none))).foldl insSym []

/-- Modelled from the spec (4.3 step 4, pair selection phrased over pairs
rather than positioned triples): the present pair of lowest rank. -/
def specChoosePair [DecidableEq β] (p2r : List ((List β × List β) × Nat))
    (s : List (List β)) : Option (List β × List β) :=
  match presentPairs p2r s with
  | [] => none
  | p :: ps =>
    some (ps.foldl (fun b q => if aLookupD p2r q 0 < aLookupD p2r b 0 then q else b) p)

/-- Modelled from the spec, amended to the source's per-iteration rewrite:
choose the lowest-ranked present pair, replace every non-overlapping
left-to-right occurrence, rescan until no pair from the table remains. -/
def specSegLoopF [DecidableEq β] (p2r : List ((List β × List β) × Nat)) :
    Nat → List (List β) → List (List β)
  | 0, s => s
  | fuel + 1, s =>
    match specChoosePair p2r s with
    | none => s
    | some p => specSegLoopF p2r fuel (mergePass p.1 p.2 s)

/-- Entry point of the amended spec segmenter. -/
def specSegAll [DecidableEq β] (p2r : List ((List β × List β) × Nat))
    (s : List (List β)) : List (List β) :=
  specSegLoopF p2r s.length s

/-- Replace only the leftmost occurrence of the pair `(a, b)`. -/
def mergeFirst [DecidableEq β] (a b : List β) : List (List β) → List (List β)
  | x :: y :: rest =>
    if x = a ∧ y = b then (a ++ b) :: rest
    else x :: mergeFirst a b (y :: rest)
  | l => l

/-- Modelled from the spec (4.3 steps 2-5 verbatim): keep `(rank, position,
pair)` candidates, choose lowest rank then leftmost position, replace
exactly that one occurrence, rescan. -/
def refOneLoopF [DecidableEq β] (p2r : List ((List β × List β) × Nat)) :
    Nat → List (List β) → List (List β)
  | 0, s => s
  | fuel + 1, s =>
    match pyMinCand (candTriples p2r 0 s) with
    | none => s
    | some c => refOneLoopF p2r fuel (mergeFirst c.2.2.1 c.2.2.2 s)

/-- Entry point of the literal spec segmenter (one occurrence per
iteration); each iteration shortens the sequence by one, so fuel equal to
the initial length again reaches the loop's exit condition. -/
def refOneSeg [DecidableEq β] (p2r : List ((List β × List β) × Nat))
    (s : List (List β)) : List (List β) :=
  refOneLoopF p2r s.length s

/-- Does `pat` occur at the head of the sequence? -/
def seqAt : List Char → List Char → Bool
  | [], _ => true
  | _ :: _, [] => false
  | p :: ps, c :: cs => decide (p = c) && seqAt ps cs

/-- Does `pat` occur as a contiguous subsequence? -/
def hasSubSeq (pat : List Char) : List Char → Bool
  | [] => pat.isEmpty
  | c :: cs => seqAt pat (c :: cs) || hasSubSeq pat cs

/-- `Chunks atoms segs`: `segs` is obtained from `atoms` by grouping
consecutive runs (each nonempty) and concatenating each run.  Every state
of the segmentation loop is such a grouping of its initial atoms. -/
inductive Chunks : List (List β) → List (List β) → Prop where
  | nil : Chunks [] []
  | cons (g : List (List β)) (hg : g ≠ []) {rest segs : List (List β)} :
      Chunks rest segs → Chunks (g ++ rest) (g.flatten :: segs)

/-- One abstract stage of the training loop: merge the selected pair
(if any) everywhere. -/
def stageStep [DecidableEq β] (v : List (List (List β) × Nat)) :
    List (List (List β) × Nat) :=
  match pyMaxEntry (pairStats v) with
  | none => v
  | some pv => mergeVocab pv.1.1 pv.1.2 v

/-- The word-form vocabulary after `k` training iterations. -/
def stageVocab [DecidableEq β] :
    Nat → List (List (List β) × Nat) → List (List (List β) × Nat)
  | 0, v => v
  | k + 1, v => stageVocab k (stageStep v)

/-- The `vocab_list` built at the end of `BPE_Tokenizer.train`. -/
def charVL (nl : List Char → List Char) (st : CharState)
    (corpus : List (List Char)) : List (List Char) :=
  CHAR_SPECIALS ++ List.insertionSort lexLe
    (collectSyms (trainLoop st.num_merges (charCorpusVocab nl corpus) st.merges).1)

/-- The `vocab_list` built at the end of `ByteBPE_Tokenizer.train`. -/
def byteVL (nl : List Char → List Char) (st : ByteState)
    (corpus : List (List Char)) : List BTok :=
  BYTE_SPECIALS ++ (List.insertionSort lexLe
    (collectSyms (trainLoop st.num_merges (byteCorpusVocab nl corpus) st.merges).1)).map
      BTok.bs

/-- The trained state used by the counterexample to claim C3. -/
def cexState3 : CharState :=
  charTrain id (charInit 3) ["a</ b</ c</w> d</w> e</w>".data]

theorem aLookup_dictSet [DecidableEq κ] (l : List (κ × β)) (k k' : κ) (v : β) :
    aLookup (dictSet l k v) k' = if k = k' then some v else aLookup l k' := by
  induction l with
  | nil => by_cases h : k = k' <;> simp [dictSet, aLookup, h]
  | cons e r ih =>
    obtain ⟨k0, v0⟩ := e
    by_cases h0 : k0 = k
    · subst h0
      by_cases h : k0 = k' <;> simp [dictSet, aLookup, h]
    · by_cases h : k0 = k'
      · subst h
        have hne : ¬k = k0 := fun hc => h0 hc.symm
        simp [dictSet, aLookup, h0, hne]
      · simp [dictSet, aLookup, h0, h, ih]

theorem aLookup_append [DecidableEq κ] (l1 l2 : List (κ × β)) (k : κ) :
    aLookup (l1 ++ l2) k =
      match aLookup l1 k with
      | some v => some v
      | none => aLookup l2 k := by
  induction l1 with
  | nil => simp [aLookup]
  | cons e r ih =>
    obtain ⟨k0, v0⟩ := e
    by_cases h : k0 = k <;> simp [aLookup, h, ih]

theorem dictSet_fresh [DecidableEq κ] (l : List (κ × β)) (k : κ) (v : β)
    (h : aLookup l k = none) : dictSet l k v = l ++ [(k, v)] := by
  induction l with
  | nil => simp [dictSet]
  | cons e r ih =>
    obtain ⟨k0, v0⟩ := e
    by_cases h0 : k0 = k
    · simp [aLookup, h0] at h
    · simp [aLookup, h0] at h
      simp [dictSet, h0, ih h]

theorem foldl_dictSet_fresh [DecidableEq κ] (ps : List (κ × β)) (d : List (κ × β))
    (hfresh : ∀ p ∈ ps, aLookup d p.1 = none) (hnd : (ps.map Prod.fst).Nodup) :
    ps.foldl (fun a p => dictSet a p.1 p.2) d = d ++ ps := by
  induction ps generalizing d with
  | nil => simp
  | cons p r ih =>
    simp only [List.foldl_cons]
    rw [dictSet_fresh _ _ _ (hfresh p (by simp)), ih]
    · simp
    · intro q hq
      rw [aLookup_append]
      have hqd : aLookup d q.1 = none := hfresh q (by simp [hq])
      have hne : ¬(p.1 = q.1) := by
        simp only [List.map_cons, List.nodup_cons] at hnd
        intro hc
        exact hnd.1 (hc ▸ List.mem_map_of_mem Prod.fst hq)
      simp [hqd, aLookup, hne]
    · simp only [List.map_cons, List.nodup_cons] at hnd
      exact hnd.2

theorem buildI2T_eq_enum (toks : List τ) : buildI2T toks = toks.enum := by
  have h := foldl_dictSet_fresh (κ := Nat) (β := τ) toks.enum []
    (by intro p _; simp [aLookup])
    (by rw [List.enum_map_fst]; exact List.nodup_range _)
  simpa [buildI2T] using h

theorem aLookup_enumFrom (toks : List τ) (n i : Nat) :
    aLookup (List.enumFrom n toks) (n + i) = toks[i]? := by
  induction toks generalizing n i with
  | nil => simp [aLookup]
  | cons x xs ih =>
    match i with
    | 0 => simp [List.enumFrom, aLookup]
    | i + 1 =>
      have : ¬(n = n + (i + 1)) := by omega
      simp only [List.enumFrom, aLookup, this, if_false]
      have h2 : n + 1 + i = n + (i + 1) := by omega
      rw [← h2, ih]
      simp

theorem aLookup_buildI2T (toks : List τ) (i : Nat) :
    aLookup (buildI2T toks) i = toks[i]? := by
  rw [buildI2T_eq_enum]
  have := aLookup_enumFrom toks 0 i
  simpa using this

theorem foldl_dictSet_snd_sound [DecidableEq τ] (P : Nat → τ → Prop)
    (ps : List (Nat × τ)) (d : List (τ × Nat))
    (hd : ∀ t i, aLookup d t = some i → P i t) (hps : ∀ p ∈ ps, P p.1 p.2) :
    ∀ t i, aLookup (ps.foldl (fun a p => dictSet a p.2 p.1) d) t = some i →
      P i t := by
  induction ps generalizing d with
  | nil => exact hd
  | cons p r ih =>
    simp only [List.foldl_cons]
    refine ih _ ?_ (fun q hq => hps q (by simp [hq]))
    intro t i hlook
    rw [aLookup_dictSet] at hlook
    by_cases h : p.2 = t
    · simp only [h, if_true] at hlook
      cases hlook
      exact h ▸ hps p (by simp)
    · simp only [h, if_false] at hlook
      exact hd t i hlook

theorem foldl_dictSet_snd_mem [DecidableEq τ]
    (ps : List (Nat × τ)) (d : List (τ × Nat)) (t : τ)
    (h : t ∈ ps.map Prod.snd ∨ (aLookup d t).isSome) :
    (aLookup (ps.foldl (fun a p => dictSet a p.2 p.1) d) t).isSome := by
  induction ps generalizing d with
  | nil => simpa using h
  | cons p r ih =>
    simp only [List.foldl_cons]
    refine ih _ ?_
    by_cases hp : p.2 = t
    · right
      rw [aLookup_dictSet]
      simp [hp]
    · rcases h with h | h
      · simp only [List.map_cons, List.mem_cons] at h
        rcases h with h | h
        · exact absurd h.symm hp
        · exact Or.inl h
      · right
        rw [aLookup_dictSet]
        simp only [hp, if_false]
        exact h

theorem mem_enumFrom_getElem (toks : List τ) (n : Nat) :
    ∀ p ∈ List.enumFrom n toks, n ≤ p.1 ∧ toks[p.1 - n]? = some p.2 := by
  induction toks generalizing n with
  | nil => simp
  | cons x xs ih =>
    intro p hp
    simp only [List.enumFrom, List.mem_cons] at hp
    rcases hp with hp | hp
    · subst hp
      simp
    · obtain ⟨h1, h2⟩ := ih (n + 1) p hp
      refine ⟨by omega, ?_⟩
      have : p.1 - n = (p.1 - (n + 1)) + 1 := by omega
      rw [this]
      simpa using h2

theorem aLookup_buildT2I_sound [DecidableEq τ] (toks : List τ) (t : τ) (i : Nat)
    (h : aLookup (buildT2I toks) t = some i) : toks[i]? = some t := by
  refine foldl_dictSet_snd_sound (fun i t => toks[i]? = some t) toks.enum []
    (by intro t i h; simp [aLookup] at h) ?_ t i h
  intro p hp
  have := mem_enumFrom_getElem toks 0 p (by simpa [List.enum] using hp)
  simpa using this.2

theorem aLookup_buildT2I_mem [DecidableEq τ] (toks : List τ) (t : τ)
    (h : t ∈ toks) : (aLookup (buildT2I toks) t).isSome := by
  refine foldl_dictSet_snd_mem toks.enum [] t (Or.inl ?_)
  rw [List.enum_map_snd]
  exact h

theorem aLookup_buildT2I_inv [DecidableEq τ] (toks : List τ) (hnd : toks.Nodup)
    (t : τ) (i : Nat) : aLookup (buildT2I toks) t = some i ↔ toks[i]? = some t := by
  constructor
  · exact aLookup_buildT2I_sound toks t i
  · intro h
    have hmem : t ∈ toks := by
      have := List.getElem?_mem h
      exact this
    have hsome := aLookup_buildT2I_mem toks t hmem
    obtain ⟨j, hj⟩ := Option.isSome_iff_exists.mp hsome
    have hjE := aLookup_buildT2I_sound toks t j hj
    have hi : i < toks.length := by
      by_contra hge
      rw [List.getElem?_eq_none (by omega)] at h
      exact Option.noConfusion h
    have : i = j := List.getElem?_inj hi hnd (h.trans hjE.symm)
    rw [this]
    exact hj

theorem t2i_then_i2t [DecidableEq τ] (toks : List τ) (t : τ) (i : Nat)
    (h : aLookup (buildT2I toks) t = some i) :
    aLookup (buildI2T toks) i = some t := by
  rw [aLookup_buildI2T]
  exact aLookup_buildT2I_sound toks t i h

theorem foldl_pick_mem (pick : γ → γ → γ)
    (hp : ∀ b e, pick b e = b ∨ pick b e = e) :
    ∀ (l : List γ) (b : γ), l.foldl pick b = b ∨ l.foldl pick b ∈ l := by
  intro l
  induction l with
  | nil => intro b; left; rfl
  | cons e r ih =>
    intro b
    rcases ih (pick b e) with h | h
    · rcases hp b e with h2 | h2
      · left; rw [List.foldl_cons, h, h2]
      · right; rw [List.foldl_cons, h, h2]; simp
    · right
      rw [List.foldl_cons]
      simp [h]

theorem pyMinCand_mem (l : List (Nat × Nat × π)) (c : Nat × Nat × π)
    (h : pyMinCand l = some c) : c ∈ l := by
  match l with
  | [] => simp [pyMinCand] at h
  | e :: rest =>
    simp only [pyMinCand, Option.some.injEq] at h
    have := foldl_pick_mem
      (fun b e' => if e'.1 < b.1 ∨ (e'.1 = b.1 ∧ e'.2.1 < b.2.1) then e' else b)
      (by intro b e'; by_cases hc : e'.1 < b.1 ∨ (e'.1 = b.1 ∧ e'.2.1 < b.2.1) <;>
        simp [hc]) rest e
    rw [h] at this
    rcases this with h2 | h2
    · simp [h2]
    · simp [h2]

theorem pyMinCand_eq_none (l : List (Nat × Nat × π)) (h : pyMinCand l = none) :
    l = [] := by
  match l with
  | [] => rfl
  | e :: rest => simp [pyMinCand] at h

theorem mergePass_flatten [DecidableEq β] (a b : List β) (s : List (List β)) :
    (mergePass a b s).flatten = s.flatten := by
  induction s using mergePass.induct (a := a) (b := b) with
  | case1 x y rest h ih =>
    simp [mergePass, h, h.1, h.2, ih]
  | case2 x y rest h ih => simp [mergePass, h, ih]
  | case3 l h => cases l with
    | nil => rfl
    | cons x t =>
      cases t with
      | nil => rfl
      | cons y r => exact absurd rfl (h x y r)

theorem mergePass_length_le [DecidableEq β] (a b : List β) (s : List (List β)) :
    (mergePass a b s).length ≤ s.length := by
  induction s using mergePass.induct (a := a) (b := b) with
  | case1 x y rest h ih => simp [mergePass, h]; omega
  | case2 x y rest h ih => simp [mergePass, h] at ih ⊢; omega
  | case3 l h => cases l with
    | nil => simp [mergePass]
    | cons x t =>
      cases t with
      | nil => simp [mergePass]
      | cons y r => exact absurd rfl (h x y r)

theorem mergePass_length_lt [DecidableEq β] (a b : List β) (s : List (List β))
    (hmem : (a, b) ∈ adjPairs s) : (mergePass a b s).length < s.length := by
  induction s using mergePass.induct (a := a) (b := b) with
  | case1 x y rest h ih =>
    have := mergePass_length_le a b rest
    simp [mergePass, h]
    omega
  | case2 x y rest h ih =>
    simp only [adjPairs, List.mem_cons] at hmem
    rcases hmem with hmem | hmem
    · exact absurd ⟨congrArg Prod.fst hmem.symm, congrArg Prod.snd hmem.symm⟩ h
    · have := ih hmem
      simp [mergePass, h]
      simpa using this
  | case3 l h => cases l with
    | nil => simp [adjPairs] at hmem
    | cons x t =>
      cases t with
      | nil => simp [adjPairs] at hmem
      | cons y r => exact absurd rfl (h x y r)

theorem candTriples_mem [DecidableEq β] (p2r : List ((List β × List β) × Nat)) :
    ∀ (n : Nat) (s : List (List β)) c, c ∈ candTriples p2r n s →
      aLookup p2r c.2.2 = some c.1 ∧ c.2.2 ∈ adjPairs s := by
  intro n s
  induction s generalizing n with
  | nil => intro c hc; simp [candTriples] at hc
  | cons x t ih =>
    intro c hc
    cases t with
    | nil => simp [candTriples] at hc
    | cons y r =>
      simp only [candTriples, List.mem_append] at hc
      rcases hc with hc | hc
      · rcases hl : aLookup p2r (x, y) with _ | v
        · rw [hl] at hc; simp at hc
        · rw [hl] at hc
          simp only [List.mem_singleton] at hc
          subst hc
          exact ⟨hl, by simp [adjPairs]⟩
      · obtain ⟨h1, h2⟩ := ih (n + 1) c hc
        exact ⟨h1, by simp [adjPairs, h2]⟩

theorem candTriples_cover [DecidableEq β] (p2r : List ((List β × List β) × Nat)) :
    ∀ (n : Nat) (s : List (List β)) p r, p ∈ adjPairs s →
      aLookup p2r p = some r → ∃ i, (r, i, p) ∈ candTriples p2r n s := by
  intro n s
  induction s generalizing n with
  | nil => intro p r hp; simp [adjPairs] at hp
  | cons x t ih =>
    intro p r hp hr
    cases t with
    | nil => simp [adjPairs] at hp
    | cons y rest =>
      simp only [adjPairs, List.mem_cons] at hp
      rcases hp with hp | hp
      · subst hp
        refine ⟨n, ?_⟩
        simp [candTriples, hr]
      · obtain ⟨i, hi⟩ := ih (n + 1) p r hp hr
        exact ⟨i, by simp [candTriples, List.mem_append, hi]⟩

theorem candTriples_nil_lookup [DecidableEq β]
    (p2r : List ((List β × List β) × Nat)) (s : List (List β))
    (h : candTriples p2r 0 s = []) :
    ∀ p ∈ adjPairs s, aLookup p2r p = none := by
  intro p hp
  rcases hl : aLookup p2r p with _ | r
  · rfl
  · obtain ⟨i, hi⟩ := candTriples_cover p2r 0 s p r hp hl
    rw [h] at hi
    simp at hi

theorem segLoopF_terminal [DecidableEq β] (p2r : List ((List β × List β) × Nat))
    (f : Nat) (s : List (List β)) (h : candTriples p2r 0 s = []) :
    segLoopF p2r f s = s := by
  cases f with
  | zero => rfl
  | succ f => simp [segLoopF, h, pyMinCand]

theorem segLoopF_adequate [DecidableEq β] (p2r : List ((List β × List β) × Nat)) :
    ∀ (f : Nat) (s : List (List β)), s.length ≤ f →
      candTriples p2r 0 (segLoopF p2r f s) = [] := by
  intro f
  induction f with
  | zero =>
    intro s hs
    have : s = [] := List.length_eq_zero.mp (by omega)
    subst this
    rfl
  | succ f ih =>
    intro s hs
    rcases hm : pyMinCand (candTriples p2r 0 s) with _ | c
    · rw [segLoopF, hm]
      exact pyMinCand_eq_none _ hm
    · rw [segLoopF, hm]
      have hcm := pyMinCand_mem _ _ hm
      obtain ⟨h1, h2⟩ := candTriples_mem p2r 0 s c hcm
      have hlt : (mergePass c.2.2.1 c.2.2.2 s).length < s.length := by
        refine mergePass_length_lt _ _ _ ?_
        simpa using h2
      exact ih _ (by omega)

theorem segMerge_fixed [DecidableEq β] (p2r : List ((List β × List β) × Nat))
    (s : List (List β)) : segMerge p2r (segMerge p2r s) = segMerge p2r s := by
  by_cases hp : p2r = []
  · simp [segMerge, hp]
  · simp only [segMerge, hp, if_false]
    exact segLoopF_terminal p2r _ _ (segLoopF_adequate p2r s.length s le_rfl)

/-- Claim C9: segmentation is a fixed point — for both alphabet variants,
re-running the greedy merge loop on its own output under the same rank
table returns it unchanged, because the terminal state contains no adjacent
pair present in the table. -/
theorem claim9_thm :
    (∀ (p2r : List ((List Char × List Char) × Nat)) (s : List (List Char)),
      segMerge p2r (segMerge p2r s) = segMerge p2r s) ∧
    (∀ (p2r : List ((List Nat × List Nat) × Nat)) (s : List (List Nat)),
      segMerge p2r (segMerge p2r s) = segMerge p2r s) :=
  ⟨fun p2r s => segMerge_fixed p2r s, fun p2r s => segMerge_fixed p2r s⟩

/-- Claim C1 is false as stated: on the corpus `["ba", "ba"]` the pairs
`('b','a')` and `('a','</w>')` both have frequency 2; the lexicographically
smallest is `('a','</w>')`, but `train` records `('b','a')` (the first key
of the pair-count dict in insertion order) as its first merge. -/
theorem claim1_cex :
    (charTrain id (charInit 20) ["ba".data, "ba".data]).merges.head? =
      some (['b'], ['a']) ∧
    lexSmallestMaxPair (pairStats (charCorpusVocab id ["ba".data, "ba".data])) =
      some (['a'], eowL) ∧
    ¬((['b'], ['a']) : List Char × List Char) = (['a'], eowL) := by
  refine ⟨by decide, by decide, by decide⟩

/-- Claim C2 is false as stated: under the rank table built from the merge
list `[("ab","a"), ("a","b")]`, the implementation rewrites `a b a b` to
`ab ab` (all occurrences of the chosen pair in one pass), while the spec's
one-occurrence-per-iteration reference produces `aba b`. -/
theorem claim2_cex :
    segMerge (buildRanks [("ab".data, "a".data), ("a".data, "b".data)])
        [['a'], ['b'], ['a'], ['b']] = [['a', 'b'], ['a', 'b']] ∧
    refOneSeg (buildRanks [("ab".data, "a".data), ("a".data, "b".data)])
        [['a'], ['b'], ['a'], ['b']] = [['a', 'b', 'a'], ['b']] ∧
    ¬segMerge (buildRanks [("ab".data, "a".data), ("a".data, "b".data)])
        [['a'], ['b'], ['a'], ['b']] =
      refOneSeg (buildRanks [("ab".data, "a".data), ("a".data, "b".data)])
        [['a'], ['b'], ['a'], ['b']] := by
  refine ⟨by decide, by decide, by decide⟩

/-- Claim C3 is false as stated for the character variant: training on
`["a</ b</ c</w> d</w> e</w>"]` with 3 merges yields the symbol `"</w>"`
in the vocabulary; encoding `"a</w>"` segments it into `a · </w> · </w>`
(all in the vocabulary, so the claim's precondition holds), but decoding
closes a word at the first `</w>` token, producing `"a "` whose
whitespace-separated word sequence `["a"]` differs from that of
`normalize("a</w>") = "a</w>"`. -/
theorem claim3_cex :
    ((pySplit (pyNormalize id "a</w>".data)).all fun w =>
      (charEncodeWord cexState3 w).all fun s =>
        !(aLookup cexState3.token_to_id s).isNone) = true ∧
    charEncode id cexState3 "a</w>".data = .ok [2, 6, 5, 5, 3] ∧
    charDecode cexState3 [2, 6, 5, 5, 3] = .ok ['a', ' '] ∧
    ¬pySplit ['a', ' '] = pySplit (pyNormalize id "a</w>".data) := by
  refine ⟨by decide, by decide, by decide, by decide⟩

/-- Claim C4 is false as stated: training on `["<unk> <unk>"]` with budget 4
merges the word into the literal symbol `"<unk>"`, which collides with the
special token; `token_to_id["<unk>"]` is overwritten to id 5 while
`id_to_token` maps both 1 and 5 to `"<unk>"`, so the maps are not mutually
inverse bijections. -/
theorem claim4_cex :
    aLookup (charTrain id (charInit 4) ["<unk> <unk>".data]).id_to_token 1 =
      some unkL ∧
    aLookup (charTrain id (charInit 4) ["<unk> <unk>".data]).token_to_id unkL =
      some 5 ∧
    ¬(5 : Nat) = 1 := by
  refine ⟨by decide, by decide, by decide⟩

/-- Claim C5 (code bug evaluation): `train` appends to `self.merges` without
resetting it, so calling `train` twice on the same instance (budget 1,
corpus `["ab ab"]`) leaves `len(merges) = 2 > num_merges = 1`, violating
the lifetime bound `len(merges) ≤ num_merges`. -/
theorem claim5_thm :
    (charTrain id (charTrain id (charInit 1) ["ab ab".data]) ["ab ab".data]).merges =
      [(['a'], ['b']), (['a'], ['b'])] ∧
    ¬(charTrain id (charTrain id (charInit 1) ["ab ab".data])
        ["ab ab".data]).merges.length ≤
      (charTrain id (charTrain id (charInit 1) ["ab ab".data])
        ["ab ab".data]).num_merges := by
  refine ⟨by decide, by decide⟩

/-- Claim C6: for the corpus `["hello, world!"]` with `num_merges = 50` in
the byte variant, every pair has frequency 1, so training stops before any
merge and every byte of the normalized UTF-8 line survives as a length-1
symbol in `token_to_id`. -/
theorem claim6_thm :
    ((utf8Enc (pyNormalize id "hello, world!".data)).all fun b =>
      !(aLookup (byteTrain id (byteInit 50)
        ["hello, world!".data]).token_to_id (BTok.bs [b])).isNone) = true := by
  decide

theorem charTrain_token_to_id (nl : List Char → List Char) (st : CharState)
    (corpus : List (List Char)) :
    (charTrain nl st corpus).token_to_id = buildT2I (charVL nl st corpus) := rfl

theorem charTrain_id_to_token (nl : List Char → List Char) (st : CharState)
    (corpus : List (List Char)) :
    (charTrain nl st corpus).id_to_token = buildI2T (charVL nl st corpus) := rfl

theorem byteTrain_token_to_id (nl : List Char → List Char) (st : ByteState)
    (corpus : List (List Char)) :
    (byteTrain nl st corpus).token_to_id = buildT2I (byteVL nl st corpus) := rfl

theorem byteTrain_id_to_token (nl : List Char → List Char) (st : ByteState)
    (corpus : List (List Char)) :
    (byteTrain nl st corpus).id_to_token = buildI2T (byteVL nl st corpus) := rfl

theorem aLookup_ne_nil [DecidableEq κ] (l : List (κ × β)) (k : κ)
    (h : (aLookup l k).isSome) : l ≠ [] := by
  intro hc
  subst hc
  simp [aLookup] at h

theorem charTrain_unk_some (nl : List Char → List Char) (st : CharState)
    (corpus : List (List Char)) :
    (aLookup (charTrain nl st corpus).token_to_id unkL).isSome := by
  rw [charTrain_token_to_id]
  refine aLookup_buildT2I_mem _ _ ?_
  simp [charVL, CHAR_SPECIALS]

theorem charTrain_bos_some (nl : List Char → List Char) (st : CharState)
    (corpus : List (List Char)) :
    (aLookup (charTrain nl st corpus).token_to_id bosL).isSome := by
  rw [charTrain_token_to_id]
  refine aLookup_buildT2I_mem _ _ ?_
  simp [charVL, CHAR_SPECIALS]

theorem charTrain_eos_some (nl : List Char → List Char) (st : CharState)
    (corpus : List (List Char)) :
    (aLookup (charTrain nl st corpus).token_to_id eosL).isSome := by
  rw [charTrain_token_to_id]
  refine aLookup_buildT2I_mem _ _ ?_
  simp [charVL, CHAR_SPECIALS]

theorem byteTrain_sp_some (nl : List Char → List Char) (st : ByteState)
    (corpus : List (List Char)) (s : String) (hs : BTok.sp s ∈ BYTE_SPECIALS) :
    (aLookup (byteTrain nl st corpus).token_to_id (BTok.sp s)).isSome := by
  rw [byteTrain_token_to_id]
  refine aLookup_buildT2I_mem _ _ ?_
  simp [byteVL]
  exact hs

theorem charTrain_i2t_ne_nil (nl : List Char → List Char) (st : CharState)
    (corpus : List (List Char)) :
    ¬(charTrain nl st corpus).id_to_token = [] := by
  rw [charTrain_id_to_token]
  intro hc
  have h0 : aLookup (buildI2T (charVL nl st corpus)) 0 = (charVL nl st corpus)[0]? :=
    aLookup_buildI2T _ 0
  rw [hc] at h0
  simp [aLookup, charVL, CHAR_SPECIALS] at h0

theorem byteTrain_i2t_ne_nil (nl : List Char → List Char) (st : ByteState)
    (corpus : List (List Char)) :
    ¬(byteTrain nl st corpus).id_to_token = [] := by
  rw [byteTrain_id_to_token]
  intro hc
  have h0 : aLookup (buildI2T (byteVL nl st corpus)) 0 = (byteVL nl st corpus)[0]? :=
    aLookup_buildI2T _ 0
  rw [hc] at h0
  simp [aLookup, byteVL, BYTE_SPECIALS] at h0

theorem tokBytes_all_bs (l : List BTok) (h : ∀ t ∈ l, ∃ b, t = BTok.bs b) :
    ∃ ps, tokBytes l = some ps := by
  induction l with
  | nil => exact ⟨[], rfl⟩
  | cons t r ih =>
    obtain ⟨b, hb⟩ := h t (by simp)
    subst hb
    obtain ⟨ps, hps⟩ := ih (fun q hq => h q (by simp [hq]))
    exact ⟨b :: ps, by simp [tokBytes, hps]⟩

theorem byteVL_shape (nl : List Char → List Char) (st : ByteState)
    (corpus : List (List Char)) (t : BTok) (h : t ∈ byteVL nl st corpus) :
    t ∈ BYTE_SPECIALS ∨ ∃ b, t = BTok.bs b := by
  simp only [byteVL, List.mem_append] at h
  rcases h with h | h
  · exact Or.inl h
  · right
    obtain ⟨b, _, hb⟩ := List.mem_map.mp h
    exact ⟨b, hb.symm⟩

theorem byteDecode_trained_ok (nl : List Char → List Char) (st : ByteState)
    (corpus : List (List Char)) (ids : List Nat) :
    ∃ out, byteDecode (byteTrain nl st corpus) ids = .ok out := by
  have hne := byteTrain_i2t_ne_nil nl st corpus
  simp only [byteDecode, hne, if_false]
  have hkept : ∀ t ∈ (ids.map (fun i =>
      aLookupD (byteTrain nl st corpus).id_to_token i (BTok.sp "<unk>"))).filter
        (fun t => decide (¬t ∈ BYTE_SPECIALS)), ∃ b, t = BTok.bs b := by
    intro t ht
    obtain ⟨htoks, hnotsp⟩ := List.mem_filter.mp ht
    obtain ⟨i, _, hi⟩ := List.mem_map.mp htoks
    rcases hl : aLookup (byteTrain nl st corpus).id_to_token i with _ | v
    · rw [← hi] at hnotsp
      simp [aLookupD, hl, BYTE_SPECIALS] at hnotsp
    · have hv : t = v := by rw [← hi]; simp [aLookupD, hl]
      subst hv
      rw [byteTrain_id_to_token, aLookup_buildI2T] at hl
      have hmem := List.getElem?_mem hl
      rcases byteVL_shape nl st corpus t hmem with hsp | hbs
      · simp [hsp] at hnotsp
      · exact hbs
  obtain ⟨ps, hps⟩ := tokBytes_all_bs _ hkept
  exact ⟨_, by rw [hps]⟩

theorem charDecode_trained_ok (nl : List Char → List Char) (st : CharState)
    (corpus : List (List Char)) (ids : List Nat) :
    ∃ out, charDecode (charTrain nl st corpus) ids = .ok out := by
  have hne := charTrain_i2t_ne_nil nl st corpus
  simp only [charDecode, hne, if_false]
  exact ⟨_, rfl⟩

theorem charEncode_trained_ok (nl nl' : List Char → List Char) (st : CharState)
    (corpus : List (List Char)) (text : List Char) :
    ∃ ids, charEncode nl' (charTrain nl st corpus) text = .ok ids := by
  have hu := charTrain_unk_some nl st corpus
  obtain ⟨u, hu⟩ := Option.isSome_iff_exists.mp hu
  have hne : ¬(charTrain nl st corpus).token_to_id = [] :=
    aLookup_ne_nil _ _ (by rw [hu]; rfl)
  simp only [charEncode, hne, if_false, hu]
  exact ⟨_, rfl⟩

theorem byteEncode_trained_ok (nl nl' : List Char → List Char) (st : ByteState)
    (corpus : List (List Char)) (text : List Char) :
    ∃ ids, byteEncode nl' (byteTrain nl st corpus) text = .ok ids := by
  have hu := byteTrain_sp_some nl st corpus "<unk>" (by simp [BYTE_SPECIALS])
  obtain ⟨u, hu⟩ := Option.isSome_iff_exists.mp hu
  have hne : ¬(byteTrain nl st corpus).token_to_id = [] :=
    aLookup_ne_nil _ _ (by rw [hu]; rfl)
  simp only [byteEncode, hne, if_false, hu]
  exact ⟨_, rfl⟩

/-- Claim C8: encode and decode fail with the explicit empty-vocabulary
error exactly in the untrained state; after `train` on any corpus
(including the empty one, whose mapper holds only the special tokens)
neither operation returns this error. -/
theorem claim8_thm :
    (∀ (nl : List Char → List Char) (n : Nat) (text : List Char),
      charEncode nl (charInit n) text =
        .error "Vocabulary is empty. Call train(corpus) first.") ∧
    (∀ (n : Nat) (ids : List Nat),
      charDecode (charInit n) ids =
        .error "Vocabulary is empty. Train the tokenizer first.") ∧
    (∀ (nl : List Char → List Char) (n : Nat) (text : List Char),
      byteEncode nl (byteInit n) text =
        .error "Vocabulary is empty. Call train(corpus) first.") ∧
    (∀ (n : Nat) (ids : List Nat),
      byteDecode (byteInit n) ids =
        .error "Vocabulary is empty. Train the tokenizer first.") ∧
    (∀ (nl nl' : List Char → List Char) (st : CharState)
      (corpus : List (List Char)) (text : List Char),
      ∃ ids, charEncode nl' (charTrain nl st corpus) text = .ok ids) ∧
    (∀ (nl : List Char → List Char) (st : CharState)
      (corpus : List (List Char)) (ids : List Nat),
      ∃ out, charDecode (charTrain nl st corpus) ids = .ok out) ∧
    (∀ (nl nl' : List Char → List Char) (st : ByteState)
      (corpus : List (List Char)) (text : List Char),
      ∃ ids, byteEncode nl' (byteTrain nl st corpus) text = .ok ids) ∧
    (∀ (nl : List Char → List Char) (st : ByteState)
      (corpus : List (List Char)) (ids : List Nat),
      ∃ out, byteDecode (byteTrain nl st corpus) ids = .ok out) := by
  refine ⟨fun nl n text => rfl, fun n ids => rfl, fun nl n text => rfl,
    fun n ids => rfl, fun nl nl' st corpus text => charEncode_trained_ok nl nl' st corpus text,
    fun nl st corpus ids => charDecode_trained_ok nl st corpus ids,
    fun nl nl' st corpus text => byteEncode_trained_ok nl nl' st corpus text,
    fun nl st corpus ids => byteDecode_trained_ok nl st corpus ids⟩

theorem pyStrip_all_space (l : List Char) (h : ∀ c ∈ l, pyIsSpace c = true) :
    pyStrip l = [] := by
  unfold pyStrip
  rw [List.dropWhile_eq_nil_iff.mpr (fun x hx => h x hx)]
  rfl

theorem pyNormalize_all_space (nl : List Char → List Char) (text : List Char)
    (h : ∀ c ∈ nl text, pyIsSpace c = true) : pyNormalize nl text = [] := by
  unfold pyNormalize
  rw [pyStrip_all_space _ h]
  rfl

theorem segMerge_nil [DecidableEq β] (p2r : List ((List β × List β) × Nat)) :
    segMerge p2r ([] : List (List β)) = [] := by
  by_cases hp : p2r = [] <;> simp [segMerge, hp, segLoopF]

theorem charEncode_trained_shape (nl : List Char → List Char) (st : CharState)
    (corpus : List (List Char)) (text : List Char) :
    ∃ b e, aLookup (charTrain nl st corpus).token_to_id bosL = some b ∧
      aLookup (charTrain nl st corpus).token_to_id eosL = some e ∧
      ∃ mid, charEncode nl (charTrain nl st corpus) text = .ok (b :: mid ++ [e]) ∧
        (pyNormalize nl text = [] → mid = []) := by
  obtain ⟨u, hu⟩ := Option.isSome_iff_exists.mp (charTrain_unk_some nl st corpus)
  obtain ⟨b, hb⟩ := Option.isSome_iff_exists.mp (charTrain_bos_some nl st corpus)
  obtain ⟨e, he⟩ := Option.isSome_iff_exists.mp (charTrain_eos_some nl st corpus)
  have hne : ¬(charTrain nl st corpus).token_to_id = [] :=
    aLookup_ne_nil _ _ (by rw [hu]; rfl)
  refine ⟨b, e, hb, he, ?_⟩
  simp only [charEncode, hne, if_false, hu]
  refine ⟨((pySplit (pyNormalize nl text)).filter (fun w => decide (¬w = []))).foldl
      (fun acc w => acc ++ charEncodeWord (charTrain nl st corpus) w) []
        |>.map (fun t => aLookupD (charTrain nl st corpus).token_to_id t u), ?_, ?_⟩
  · simp only [List.map_cons, List.map_append, List.map_cons, List.map_nil]
    rw [aLookupD, hb, aLookupD, he]
    rfl
  · intro hempty
    rw [hempty]
    rfl

theorem byteEncode_trained_shape (nl : List Char → List Char) (st : ByteState)
    (corpus : List (List Char)) (text : List Char) :
    ∃ b e, aLookup (byteTrain nl st corpus).token_to_id (BTok.sp "<bos>") = some b ∧
      aLookup (byteTrain nl st corpus).token_to_id (BTok.sp "<eos>") = some e ∧
      ∃ mid, byteEncode nl (byteTrain nl st corpus) text = .ok (b :: mid ++ [e]) ∧
        (pyNormalize nl text = [] → mid = []) := by
  obtain ⟨u, hu⟩ := Option.isSome_iff_exists.mp
    (byteTrain_sp_some nl st corpus "<unk>" (by simp [BYTE_SPECIALS]))
  obtain ⟨b, hb⟩ := Option.isSome_iff_exists.mp
    (byteTrain_sp_some nl st corpus "<bos>" (by simp [BYTE_SPECIALS]))
  obtain ⟨e, he⟩ := Option.isSome_iff_exists.mp
    (byteTrain_sp_some nl st corpus "<eos>" (by simp [BYTE_SPECIALS]))
  have hne : ¬(byteTrain nl st corpus).token_to_id = [] :=
    aLookup_ne_nil _ _ (by rw [hu]; rfl)
  refine ⟨b, e, hb, he, ?_⟩
  simp only [byteEncode, hne, if_false, hu]
  refine ⟨((byteEncodeBytes (byteTrain nl st corpus)
      (utf8Enc (pyNormalize nl text))).map BTok.bs).map
        (fun t => aLookupD (byteTrain nl st corpus).token_to_id t u), ?_, ?_⟩
  · simp only [List.map_cons, List.map_append, List.map_cons, List.map_nil]
    rw [aLookupD, hb, aLookupD, he]
    rfl
  · intro hempty
    rw [hempty]
    show ((byteEncodeBytes (byteTrain nl st corpus) (utf8Enc [])).map BTok.bs).map _ = []
    rw [show utf8Enc [] = [] from rfl]
    unfold byteEncodeBytes
    rw [show (([] : List Nat).map fun b => [b]) = [] from rfl, segMerge_nil]
    rfl

/-- Claim C10: for every trained tokenizer in either variant, every encode
result begins with the bos id and ends with the eos id, and encoding text
whose (externally normalized) content is all whitespace — in particular the
empty string — yields exactly the two-element sequence `[bos id, eos id]`. -/
theorem claim10_thm :
    (∀ (nl : List Char → List Char) (st : CharState) (corpus : List (List Char))
        (text : List Char) (ids : List Nat),
      charEncode nl (charTrain nl st corpus) text = .ok ids →
      ∃ b e mid, aLookup (charTrain nl st corpus).token_to_id bosL = some b ∧
        aLookup (charTrain nl st corpus).token_to_id eosL = some e ∧
        ids = b :: mid ++ [e]) ∧
    (∀ (nl : List Char → List Char) (st : CharState) (corpus : List (List Char))
        (text : List Char), (∀ c ∈ nl text, pyIsSpace c = true) →
      ∃ b e, aLookup (charTrain nl st corpus).token_to_id bosL = some b ∧
        aLookup (charTrain nl st corpus).token_to_id eosL = some e ∧
        charEncode nl (charTrain nl st corpus) text = .ok [b, e]) ∧
    (∀ (nl : List Char → List Char) (st : ByteState) (corpus : List (List Char))
        (text : List Char) (ids : List Nat),
      byteEncode nl (byteTrain nl st corpus) text = .ok ids →
      ∃ b e mid,
        aLookup (byteTrain nl st corpus).token_to_id (BTok.sp "<bos>") = some b ∧
        aLookup (byteTrain nl st corpus).token_to_id (BTok.sp "<eos>") = some e ∧
        ids = b :: mid ++ [e]) ∧
    (∀ (nl : List Char → List Char) (st : ByteState) (corpus : List (List Char))
        (text : List Char), (∀ c ∈ nl text, pyIsSpace c = true) →
      ∃ b e,
        aLookup (byteTrain nl st corpus).token_to_id (BTok.sp "<bos>") = some b ∧
        aLookup (byteTrain nl st corpus).token_to_id (BTok.sp "<eos>") = some e ∧
        byteEncode nl (byteTrain nl st corpus) text = .ok [b, e]) := by
  refine ⟨?_, ?_, ?_, ?_⟩
  · intro nl st corpus text ids hok
    obtain ⟨b, e, hb, he, mid, hmid, _⟩ := charEncode_trained_shape nl st corpus text
    rw [hok] at hmid
    exact ⟨b, e, mid, hb, he, by cases hmid; rfl⟩
  · intro nl st corpus text hws
    obtain ⟨b, e, hb, he, mid, hmid, hemp⟩ := charEncode_trained_shape nl st corpus text
    rw [hemp (pyNormalize_all_space nl text hws)] at hmid
    exact ⟨b, e, hb, he, hmid⟩
  · intro nl st corpus text ids hok
    obtain ⟨b, e, hb, he, mid, hmid, _⟩ := byteEncode_trained_shape nl st corpus text
    rw [hok] at hmid
    exact ⟨b, e, mid, hb, he, by cases hmid; rfl⟩
  · intro nl st corpus text hws
    obtain ⟨b, e, hb, he, mid, hmid, hemp⟩ := byteEncode_trained_shape nl st corpus text
    rw [hemp (pyNormalize_all_space nl text hws)] at hmid
    exact ⟨b, e, hb, he, hmid⟩

/-- Witness for claim C10 at concrete inputs: the whitespace-only text `" "`
encodes to exactly `[bos id, eos id]` on a tokenizer trained on
`["ab ab"]`, and a concrete nonempty encode result is bracketed. -/
theorem claim10_witness :
    (∃ b e, aLookup (charTrain id (charInit 1) ["ab ab".data]).token_to_id bosL =
        some b ∧
      aLookup (charTrain id (charInit 1) ["ab ab".data]).token_to_id eosL = some e ∧
      charEncode id (charTrain id (charInit 1) ["ab ab".data]) " ".data =
        .ok [b, e]) ∧
    (∃ b e mid,
      aLookup (byteTrain id (byteInit 1) ["ab ab".data]).token_to_id
        (BTok.sp "<bos>") = some b ∧
      aLookup (byteTrain id (byteInit 1) ["ab ab".data]).token_to_id
        (BTok.sp "<eos>") = some e ∧
      [2, 5, 3] = b :: mid ++ [e]) :=
  ⟨claim10_thm.2.1 id (charInit 1) ["ab ab".data] " ".data (by decide),
   claim10_thm.2.2.1 id (byteInit 1) ["ab ab".data] "ab".data [2, 5, 3] (by decide)⟩

theorem foldl_max_spec (rest : List (κ × Nat)) (b r : κ × Nat)
    (h : rest.foldl (fun b e' => if b.2 < e'.2 then e' else b) b = r) :
    (r = b ∧ ∀ e ∈ rest, e.2 ≤ b.2) ∨
    (∃ r1 r2, rest = r1 ++ r :: r2 ∧ b.2 < r.2 ∧ (∀ e ∈ r1, e.2 < r.2) ∧
      ∀ e ∈ r2, e.2 ≤ r.2) := by
  induction rest generalizing b with
  | nil => exact Or.inl ⟨h.symm, by simp⟩
  | cons e' rest' ih =>
    rw [List.foldl_cons] at h
    by_cases hc : b.2 < e'.2
    · rw [if_pos hc] at h
      rcases ih e' h with ⟨heq, hbd⟩ | ⟨r1, r2, hsplit, hlt, h1, h2⟩
      · subst heq
        right
        refine ⟨[], rest', by rw [List.nil_append], hc, by simp, hbd⟩
      · right
        refine ⟨e' :: r1, r2, by rw [hsplit, List.cons_append], by omega, ?_, h2⟩
        intro e he
        rcases List.mem_cons.mp he with he | he
        · subst he; omega
        · exact h1 e he
    · rw [if_neg hc] at h
      rcases ih b h with ⟨heq, hbd⟩ | ⟨r1, r2, hsplit, hlt, h1, h2⟩
      · left
        refine ⟨heq, ?_⟩
        intro e he
        rcases List.mem_cons.mp he with he | he
        · subst he; omega
        · exact hbd e he
      · right
        refine ⟨e' :: r1, r2, by rw [hsplit, List.cons_append], hlt, ?_, h2⟩
        intro e he
        rcases List.mem_cons.mp he with he | he
        · subst he; omega
        · exact h1 e he

theorem pyMaxEntry_spec (l : List (κ × Nat)) (k : κ) (v : Nat)
    (h : pyMaxEntry l = some (k, v)) :
    ∃ l1 l2, l = l1 ++ (k, v) :: l2 ∧ (∀ e ∈ l1, e.2 < v) ∧
      ∀ e ∈ l, e.2 ≤ v := by
  match l with
  | [] => simp [pyMaxEntry] at h
  | e :: rest =>
    simp only [pyMaxEntry, Option.some.injEq] at h
    rcases foldl_max_spec rest e (k, v) h with ⟨heq, hbd⟩ | ⟨r1, r2, hsplit, hlt, h1, h2⟩
    · subst heq
      refine ⟨[], rest, by rw [List.nil_append], by simp, ?_⟩
      intro q hq
      rcases List.mem_cons.mp hq with hq | hq
      · subst hq; exact le_rfl
      · exact hbd q hq
    · refine ⟨e :: r1, r2, by rw [hsplit, List.cons_append], ?_, ?_⟩
      · intro q hq
        rcases List.mem_cons.mp hq with hq | hq
        · subst hq; exact hlt
        · exact h1 q hq
      · intro q hq
        rcases List.mem_cons.mp hq with hq | hq
        · subst hq; omega
        · rw [hsplit] at hq
          rcases List.mem_append.mp hq with hq | hq
          · have := h1 q hq; omega
          · rcases List.mem_cons.mp hq with hq | hq
            · subst hq; omega
            · exact h2 q hq

theorem trainLoop_merges_append [DecidableEq β] :
    ∀ (fuel : Nat) (vocab : List (List (List β) × Nat)) (ms : List (List β × List β)),
      (trainLoop fuel vocab ms).2 = ms ++ (trainLoop fuel vocab []).2 := by
  intro fuel
  induction fuel with
  | zero => intro vocab ms; simp [trainLoop]
  | succ fuel ih =>
    intro vocab ms
    rcases hm : pyMaxEntry (pairStats vocab) with _ | pv
    · simp [trainLoop, hm]
    · obtain ⟨p, v⟩ := pv
      by_cases hv : v < 2
      · simp [trainLoop, hm, hv]
      · simp only [trainLoop, hm, hv, if_false]
        rw [ih (mergeVocab p.1 p.2 vocab) (ms ++ [p]),
          ih (mergeVocab p.1 p.2 vocab) ([] ++ [p])]
        simp

theorem trainLoop_merge_stage [DecidableEq β] :
    ∀ (fuel : Nat) (vocab : List (List (List β) × Nat)) (i : Nat)
      (p : List β × List β),
      ((trainLoop fuel vocab []).2)[i]? = some p →
      ∃ v, pyMaxEntry (pairStats (stageVocab i vocab)) = some (p, v) ∧ 2 ≤ v := by
  intro fuel
  induction fuel with
  | zero => intro vocab i p h; simp [trainLoop] at h
  | succ fuel ih =>
    intro vocab i p h
    rcases hm : pyMaxEntry (pairStats vocab) with _ | pv
    · simp [trainLoop, hm] at h
    · obtain ⟨q, v⟩ := pv
      by_cases hv : v < 2
      · simp [trainLoop, hm, hv] at h
      · simp only [trainLoop, hm, hv, if_false] at h
        rw [trainLoop_merges_append fuel (mergeVocab q.1 q.2 vocab) ([] ++ [q])] at h
        match i with
        | 0 =>
          simp at h
          subst h
          exact ⟨v, hm, by omega⟩
        | i + 1 =>
          simp only [List.nil_append, List.cons_append, List.nil_append] at h
          rw [List.getElem?_cons_succ] at h
          obtain ⟨v', hv', h2⟩ := ih (mergeVocab q.1 q.2 vocab) i p h
          refine ⟨v', ?_, h2⟩
          have hstage : stageVocab (i + 1) vocab =
              stageVocab i (mergeVocab q.1 q.2 vocab) := by
            show stageVocab i (stageStep vocab) = _
            rw [show stageStep vocab = mergeVocab q.1 q.2 vocab from by
              simp [stageStep, hm]]
          rw [hstage]
          exact hv'

theorem charTrain_merges_init (nl : List Char → List Char) (n : Nat)
    (corpus : List (List Char)) :
    (charTrain nl (charInit n) corpus).merges =
      (trainLoop n (charCorpusVocab nl corpus) []).2 := rfl

theorem byteTrain_merges_init (nl : List Char → List Char) (n : Nat)
    (corpus : List (List Char)) :
    (byteTrain nl (byteInit n) corpus).merges =
      (trainLoop n (byteCorpusVocab nl corpus) []).2 := rfl

/-- Claim C1, amended: each merge recorded by `train` (from a fresh
instance) is the **first** pair attaining the maximum frequency in the
pair-statistics mapping of its stage, in the mapping's insertion order —
not the lexicographically smallest such pair.  The selection depends only
on corpus and budget, so training remains deterministic. -/
theorem claim1_thm :
    (∀ (nl : List Char → List Char) (n : Nat) (corpus : List (List Char))
        (i : Nat) (p : List Char × List Char),
      ((charTrain nl (charInit n) corpus).merges)[i]? = some p →
      ∃ v l1 l2,
        pairStats (stageVocab i (charCorpusVocab nl corpus)) = l1 ++ (p, v) :: l2 ∧
        2 ≤ v ∧ (∀ e ∈ l1, e.2 < v) ∧
        ∀ e ∈ pairStats (stageVocab i (charCorpusVocab nl corpus)), e.2 ≤ v) ∧
    (∀ (nl : List Char → List Char) (n : Nat) (corpus : List (List Char))
        (i : Nat) (p : List Nat × List Nat),
      ((byteTrain nl (byteInit n) corpus).merges)[i]? = some p →
      ∃ v l1 l2,
        pairStats (stageVocab i (byteCorpusVocab nl corpus)) = l1 ++ (p, v) :: l2 ∧
        2 ≤ v ∧ (∀ e ∈ l1, e.2 < v) ∧
        ∀ e ∈ pairStats (stageVocab i (byteCorpusVocab nl corpus)), e.2 ≤ v) := by
  constructor
  · intro nl n corpus i p h
    rw [charTrain_merges_init] at h
    obtain ⟨v, hmax, h2⟩ := trainLoop_merge_stage n (charCorpusVocab nl corpus) i p h
    obtain ⟨l1, l2, hsplit, hlt, hle⟩ := pyMaxEntry_spec _ _ _ hmax
    exact ⟨v, l1, l2, hsplit, h2, hlt, hle⟩
  · intro nl n corpus i p h
    rw [byteTrain_merges_init] at h
    obtain ⟨v, hmax, h2⟩ := trainLoop_merge_stage n (byteCorpusVocab nl corpus) i p h
    obtain ⟨l1, l2, hsplit, hlt, hle⟩ := pyMaxEntry_spec _ _ _ hmax
    exact ⟨v, l1, l2, hsplit, h2, hlt, hle⟩

/-- Witness for claim C1: the first merge on corpus `["ab ab"]` is
`('a','b')`, the first maximal entry of the initial pair statistics. -/
theorem claim1_witness :
    ∃ v l1 l2,
      pairStats (stageVocab 0 (charCorpusVocab id ["ab ab".data])) =
        l1 ++ ((['a'], ['b']), v) :: l2 ∧
      2 ≤ v ∧ (∀ e ∈ l1, e.2 < v) ∧
      ∀ e ∈ pairStats (stageVocab 0 (charCorpusVocab id ["ab ab".data])),
        e.2 ≤ v :=
  claim1_thm.1 id 1 ["ab ab".data] 0 (['a'], ['b']) (by decide)

theorem foldl_insSym_nodup [DecidableEq σ] :
    ∀ (w : List σ) (acc : List σ), acc.Nodup → (w.foldl insSym acc).Nodup := by
  intro w
  induction w with
  | nil => intro acc h; exact h
  | cons x r ih =>
    intro acc h
    refine ih _ ?_
    unfold insSym
    by_cases hx : x ∈ acc
    · simp [hx, h]
    · simp [hx, List.nodup_append, h]

theorem mem_foldl_insSym [DecidableEq σ] :
    ∀ (w : List σ) (acc : List σ) (s : σ),
      s ∈ w.foldl insSym acc ↔ s ∈ acc ∨ s ∈ w := by
  intro w
  induction w with
  | nil => intro acc s; simp
  | cons x r ih =>
    intro acc s
    rw [List.foldl_cons, ih]
    unfold insSym
    by_cases hx : x ∈ acc
    · simp only [hx, if_true, List.mem_cons]
      constructor
      · rintro (h | h)
        · exact Or.inl h
        · exact Or.inr (Or.inr h)
      · rintro (h | h | h)
        · exact Or.inl h
        · subst h; exact Or.inl hx
        · exact Or.inr h
    · simp only [hx, if_false, List.mem_append, List.mem_singleton, List.mem_cons]
      tauto

theorem collectSyms_nodup [DecidableEq σ] (vocab : List (List σ × Nat)) :
    (collectSyms vocab).Nodup := by
  have hgen : ∀ (vs : List (List σ × Nat)) (acc : List σ), acc.Nodup →
      (vs.foldl (fun acc wf => wf.1.foldl insSym acc) acc).Nodup := by
    intro vs
    induction vs with
    | nil => intro acc h; exact h
    | cons wf r ih => intro acc h; exact ih _ (foldl_insSym_nodup wf.1 acc h)
  exact hgen vocab [] (by simp)

theorem sortedSyms_nodup [DecidableEq β] [LinearOrder β]
    (vocab : List (List (List β) × Nat)) :
    (List.insertionSort lexLe (collectSyms vocab)).Nodup :=
  (List.perm_insertionSort lexLe (collectSyms vocab)).nodup_iff.mpr
    (collectSyms_nodup vocab)

theorem sortedSyms_mem [DecidableEq β] [LinearOrder β]
    (vocab : List (List (List β) × Nat)) (s : List β) :
    s ∈ List.insertionSort lexLe (collectSyms vocab) ↔ s ∈ collectSyms vocab :=
  (List.perm_insertionSort lexLe (collectSyms vocab)).mem_iff

theorem charVL_nodup (nl : List Char → List Char) (st : CharState)
    (corpus : List (List Char))
    (hyp : ∀ s ∈ collectSyms
        (trainLoop st.num_merges (charCorpusVocab nl corpus) st.merges).1,
      ¬s ∈ CHAR_SPECIALS) :
    (charVL nl st corpus).Nodup := by
  refine List.Nodup.append (by decide) (sortedSyms_nodup _) ?_
  intro a ha hb
  exact hyp a ((sortedSyms_mem _ a).mp hb) ha

theorem byteVL_nodup (nl : List Char → List Char) (st : ByteState)
    (corpus : List (List Char)) : (byteVL nl st corpus).Nodup := by
  refine List.Nodup.append (by decide) ?_ ?_
  · refine List.Nodup.map ?_ (sortedSyms_nodup _)
    intro a b hab
    cases hab
    rfl
  · intro a ha hb
    obtain ⟨b, _, hb2⟩ := List.mem_map.mp hb
    subst hb2
    simp [BYTE_SPECIALS] at ha

/-- Claim C4, amended: provided no surviving symbol equals a special token
(automatic in the byte variant, where symbols are bytes and specials are
strings), `token_to_id` and `id_to_token` are mutually inverse, the four
special tokens receive ids 0-3, and the distinct surviving symbols receive
the subsequent ids in sorted lexicographic order without duplicates. -/
theorem claim4_thm :
    (∀ (nl : List Char → List Char) (st : CharState) (corpus : List (List Char)),
      (∀ s ∈ collectSyms
          (trainLoop st.num_merges (charCorpusVocab nl corpus) st.merges).1,
        ¬s ∈ CHAR_SPECIALS) →
      (∀ t i, aLookup (charTrain nl st corpus).token_to_id t = some i ↔
        aLookup (charTrain nl st corpus).id_to_token i = some t) ∧
      (∀ i, aLookup (charTrain nl st corpus).id_to_token i =
        (charVL nl st corpus)[i]?) ∧
      aLookup (charTrain nl st corpus).id_to_token 0 = some padL ∧
      aLookup (charTrain nl st corpus).id_to_token 1 = some unkL ∧
      aLookup (charTrain nl st corpus).id_to_token 2 = some bosL ∧
      aLookup (charTrain nl st corpus).id_to_token 3 = some eosL ∧
      List.Sorted lexLe (List.insertionSort lexLe (collectSyms
        (trainLoop st.num_merges (charCorpusVocab nl corpus) st.merges).1)) ∧
      (List.insertionSort lexLe (collectSyms
        (trainLoop st.num_merges (charCorpusVocab nl corpus) st.merges).1)).Nodup ∧
      ∀ s, s ∈ List.insertionSort lexLe (collectSyms
          (trainLoop st.num_merges (charCorpusVocab nl corpus) st.merges).1) ↔
        s ∈ collectSyms
          (trainLoop st.num_merges (charCorpusVocab nl corpus) st.merges).1) ∧
    (∀ (nl : List Char → List Char) (st : ByteState) (corpus : List (List Char)),
      (∀ t i, aLookup (byteTrain nl st corpus).token_to_id t = some i ↔
        aLookup (byteTrain nl st corpus).id_to_token i = some t) ∧
      (∀ i, aLookup (byteTrain nl st corpus).id_to_token i =
        (byteVL nl st corpus)[i]?) ∧
      aLookup (byteTrain nl st corpus).id_to_token 0 = some (BTok.sp "<pad>") ∧
      aLookup (byteTrain nl st corpus).id_to_token 1 = some (BTok.sp "<unk>") ∧
      aLookup (byteTrain nl st corpus).id_to_token 2 = some (BTok.sp "<bos>") ∧
      aLookup (byteTrain nl st corpus).id_to_token 3 = some (BTok.sp "<eos>") ∧
      List.Sorted lexLe (List.insertionSort lexLe (collectSyms
        (trainLoop st.num_merges (byteCorpusVocab nl corpus) st.merges).1)) ∧
      (List.insertionSort lexLe (collectSyms
        (trainLoop st.num_merges (byteCorpusVocab nl corpus) st.merges).1)).Nodup ∧
      ∀ s, s ∈ List.insertionSort lexLe (collectSyms
          (trainLoop st.num_merges (byteCorpusVocab nl corpus) st.merges).1) ↔
        s ∈ collectSyms
          (trainLoop st.num_merges (byteCorpusVocab nl corpus) st.merges).1) := by
  constructor
  · intro nl st corpus hyp
    have hnd := charVL_nodup nl st corpus hyp
    refine ⟨?_, ?_, ?_, ?_, ?_, ?_,
      List.sorted_insertionSort lexLe _, sortedSyms_nodup _, sortedSyms_mem _⟩
    · intro t i
      rw [charTrain_token_to_id, charTrain_id_to_token, aLookup_buildI2T]
      exact aLookup_buildT2I_inv _ hnd t i
    · intro i
      rw [charTrain_id_to_token, aLookup_buildI2T]
    · rw [charTrain_id_to_token, aLookup_buildI2T, charVL,
        List.getElem?_append, if_pos (by simp [CHAR_SPECIALS])]
      decide
    · rw [charTrain_id_to_token, aLookup_buildI2T, charVL,
        List.getElem?_append, if_pos (by simp [CHAR_SPECIALS])]
      decide
    · rw [charTrain_id_to_token, aLookup_buildI2T, charVL,
        List.getElem?_append, if_pos (by simp [CHAR_SPECIALS])]
      decide
    · rw [charTrain_id_to_token, aLookup_buildI2T, charVL,
        List.getElem?_append, if_pos (by simp [CHAR_SPECIALS])]
      decide
  · intro nl st corpus
    have hnd := byteVL_nodup nl st corpus
    refine ⟨?_, ?_, ?_, ?_, ?_, ?_,
      List.sorted_insertionSort lexLe _, sortedSyms_nodup _, sortedSyms_mem _⟩
    · intro t i
      rw [byteTrain_token_to_id, byteTrain_id_to_token, aLookup_buildI2T]
      exact aLookup_buildT2I_inv _ hnd t i
    · intro i
      rw [byteTrain_id_to_token, aLookup_buildI2T]
    · rw [byteTrain_id_to_token, aLookup_buildI2T, byteVL,
        List.getElem?_append, if_pos (by simp [BYTE_SPECIALS])]
      decide
    · rw [byteTrain_id_to_token, aLookup_buildI2T, byteVL,
        List.getElem?_append, if_pos (by simp [BYTE_SPECIALS])]
      decide
    · rw [byteTrain_id_to_token, aLookup_buildI2T, byteVL,
        List.getElem?_append, if_pos (by simp [BYTE_SPECIALS])]
      decide
    · rw [byteTrain_id_to_token, aLookup_buildI2T, byteVL,
        List.getElem?_append, if_pos (by simp [BYTE_SPECIALS])]
      decide

/-- Witness for claim C4: concrete instances on corpus `["low"]` with
budget 0 — symbol `"l"` gets id 5 in both directions, and id 0 is the pad
token. -/
theorem claim4_witness :
    (aLookup (charTrain id (charInit 0) ["low".data]).token_to_id ['l'] = some 5 ↔
      aLookup (charTrain id (charInit 0) ["low".data]).id_to_token 5 = some ['l']) ∧
    aLookup (charTrain id (charInit 0) ["low".data]).id_to_token 0 = some padL :=
  ⟨(claim4_thm.1 id (charInit 0) ["low".data] (by decide)).1 ['l'] 5,
   (claim4_thm.1 id (charInit 0) ["low".data] (by decide)).2.2.1⟩

theorem filter_drop_head (p : α → Bool) (x : α) (l : List α)
    (h : p x = false) : (x :: l).filter p = l.filter p := by
  simp [List.filter_cons, h]

theorem charDecode_oob (nl : List Char → List Char) (st : CharState)
    (corpus : List (List Char)) (pre post : List Nat) (i : Nat)
    (h : aLookup (charTrain nl st corpus).id_to_token i = none) :
    charDecode (charTrain nl st corpus) (pre ++ i :: post) =
      charDecode (charTrain nl st corpus) (pre ++ post) := by
  have hne := charTrain_i2t_ne_nil nl st corpus
  have hd : aLookupD (charTrain nl st corpus).id_to_token i unkL = unkL := by
    simp [aLookupD, h]
  simp only [charDecode, hne, if_false, List.map_append, List.map_cons,
    List.filter_append]
  rw [filter_drop_head _ _ _ (by rw [hd]; decide)]

theorem byteDecode_oob (nl : List Char → List Char) (st : ByteState)
    (corpus : List (List Char)) (pre post : List Nat) (i : Nat)
    (h : aLookup (byteTrain nl st corpus).id_to_token i = none) :
    byteDecode (byteTrain nl st corpus) (pre ++ i :: post) =
      byteDecode (byteTrain nl st corpus) (pre ++ post) := by
  have hne := byteTrain_i2t_ne_nil nl st corpus
  have hd : aLookupD (byteTrain nl st corpus).id_to_token i (BTok.sp "<unk>") =
      BTok.sp "<unk>" := by
    simp [aLookupD, h]
  simp only [byteDecode, hne, if_false, List.map_append, List.map_cons,
    List.filter_append]
  rw [filter_drop_head _ _ _ (by rw [hd]; decide)]

theorem charEncode_unk_map (nl : List Char → List Char) (st : CharState)
    (corpus : List (List Char)) (text : List Char) :
    ∃ u, aLookup (charTrain nl st corpus).token_to_id unkL = some u ∧
      charEncode nl (charTrain nl st corpus) text =
        .ok ((bosL :: ((pySplit (pyNormalize nl text)).filter
            (fun w => decide (¬w = []))).foldl
              (fun acc w => acc ++ charEncodeWord (charTrain nl st corpus) w) []
            ++ [eosL]).map
          (fun t => aLookupD (charTrain nl st corpus).token_to_id t u)) := by
  obtain ⟨u, hu⟩ := Option.isSome_iff_exists.mp (charTrain_unk_some nl st corpus)
  have hne : ¬(charTrain nl st corpus).token_to_id = [] :=
    aLookup_ne_nil _ _ (by rw [hu]; rfl)
  refine ⟨u, hu, ?_⟩
  simp only [charEncode, hne, if_false, hu]

/-- Claim C7: after training, encode never raises (unknown symbols are
mapped through `token_to_id.get(tok, unk_id)`), decode is total over every
integer id sequence, an out-of-range id resolves to the unk token and is
then dropped with the special tokens, and the byte variant's UTF-8 decoder
substitutes a replacement character for invalid bytes instead of failing. -/
theorem claim7_thm :
    (∀ (nl : List Char → List Char) (st : CharState) (corpus : List (List Char))
        (text : List Char),
      ∃ ids, charEncode nl (charTrain nl st corpus) text = .ok ids) ∧
    (∀ (nl : List Char → List Char) (st : ByteState) (corpus : List (List Char))
        (text : List Char),
      ∃ ids, byteEncode nl (byteTrain nl st corpus) text = .ok ids) ∧
    (∀ (nl : List Char → List Char) (st : CharState) (corpus : List (List Char))
        (ids : List Nat),
      ∃ out, charDecode (charTrain nl st corpus) ids = .ok out) ∧
    (∀ (nl : List Char → List Char) (st : ByteState) (corpus : List (List Char))
        (ids : List Nat),
      ∃ out, byteDecode (byteTrain nl st corpus) ids = .ok out) ∧
    (∀ (nl : List Char → List Char) (st : CharState) (corpus : List (List Char))
        (pre post : List Nat) (i : Nat),
      aLookup (charTrain nl st corpus).id_to_token i = none →
      charDecode (charTrain nl st corpus) (pre ++ i :: post) =
        charDecode (charTrain nl st corpus) (pre ++ post)) ∧
    (∀ (nl : List Char → List Char) (st : ByteState) (corpus : List (List Char))
        (pre post : List Nat) (i : Nat),
      aLookup (byteTrain nl st corpus).id_to_token i = none →
      byteDecode (byteTrain nl st corpus) (pre ++ i :: post) =
        byteDecode (byteTrain nl st corpus) (pre ++ post)) ∧
    (∀ (nl : List Char → List Char) (st : CharState) (corpus : List (List Char))
        (text : List Char),
      ∃ u, aLookup (charTrain nl st corpus).token_to_id unkL = some u ∧
        charEncode nl (charTrain nl st corpus) text =
          .ok ((bosL :: ((pySplit (pyNormalize nl text)).filter
              (fun w => decide (¬w = []))).foldl
                (fun acc w => acc ++ charEncodeWord (charTrain nl st corpus) w) []
              ++ [eosL]).map
            (fun t => aLookupD (charTrain nl st corpus).token_to_id t u))) ∧
    utf8DecR [255] = [replC] :=
  ⟨fun nl st corpus text => charEncode_trained_ok nl nl st corpus text,
   fun nl st corpus text => byteEncode_trained_ok nl nl st corpus text,
   fun nl st corpus ids => charDecode_trained_ok nl st corpus ids,
   fun nl st corpus ids => byteDecode_trained_ok nl st corpus ids,
   fun nl st corpus pre post i h => charDecode_oob nl st corpus pre post i h,
   fun nl st corpus pre post i h => byteDecode_oob nl st corpus pre post i h,
   fun nl st corpus text => charEncode_unk_map nl st corpus text,
   by decide⟩

/-- Witness for claim C7: a concrete out-of-range id (99) inserted into a
decode input changes nothing on a tokenizer trained on `["ab ab"]`. -/
theorem claim7_witness :
    charDecode (charTrain id (charInit 1) ["ab ab".data]) ([2] ++ 99 :: [3]) =
      charDecode (charTrain id (charInit 1) ["ab ab".data]) ([2] ++ [3]) :=
  claim7_thm.2.2.2.2.1 id (charInit 1) ["ab ab".data] [2] [3] 99 (by decide)

theorem dictSet_inj_aux [DecidableEq κ] :
    ∀ (ps : List (Nat × κ)) (d : List (κ × Nat)),
      (∀ k1 k2 v, aLookup d k1 = some v → aLookup d k2 = some v → k1 = k2) →
      (∀ q ∈ ps, ∀ k v, aLookup d k = some v → ¬v = q.1) →
      (ps.map Prod.fst).Nodup →
      ∀ k1 k2 v,
        aLookup (ps.foldl (fun a p => dictSet a p.2 p.1) d) k1 = some v →
        aLookup (ps.foldl (fun a p => dictSet a p.2 p.1) d) k2 = some v →
        k1 = k2 := by
  intro ps
  induction ps with
  | nil => intro d hinj _ _; exact hinj
  | cons p r ih =>
    intro d hinj hfresh hnd
    simp only [List.foldl_cons]
    simp only [List.map_cons, List.nodup_cons] at hnd
    refine ih (dictSet d p.2 p.1) ?_ ?_ hnd.2
    · intro k1 k2 v h1 h2
      rw [aLookup_dictSet] at h1 h2
      by_cases e1 : p.2 = k1
      · by_cases e2 : p.2 = k2
        · rw [← e1, ← e2]
        · rw [if_pos e1] at h1
          rw [if_neg e2] at h2
          cases h1
          exact absurd rfl (hfresh p (by simp) k2 p.1 h2)
      · by_cases e2 : p.2 = k2
        · rw [if_neg e1] at h1
          rw [if_pos e2] at h2
          cases h2
          exact absurd rfl (hfresh p (by simp) k1 p.1 h1)
        · rw [if_neg e1] at h1
          rw [if_neg e2] at h2
          exact hinj k1 k2 v h1 h2
    · intro q hq k v hk
      rw [aLookup_dictSet] at hk
      by_cases e : p.2 = k
      · rw [if_pos e] at hk
        cases hk
        intro hc
        exact hnd.1 (hc ▸ List.mem_map_of_mem Prod.fst hq)
      · rw [if_neg e] at hk
        exact hfresh q (by simp [hq]) k v hk

theorem buildRanks_inj [DecidableEq κ] (ms : List κ) (p q : κ) (r : Nat)
    (hp : aLookup (buildRanks ms) p = some r)
    (hq : aLookup (buildRanks ms) q = some r) : p = q := by
  refine dictSet_inj_aux ms.enum []
    (by intro k1 k2 v h1; simp [aLookup] at h1)
    (by intro x _ k v h1; simp [aLookup] at h1)
    (by rw [List.enum_map_fst]; exact List.nodup_range _) p q r hp hq

theorem foldl_minfst_le (rest : List (Nat × Nat × π)) (b r : Nat × Nat × π)
    (h : rest.foldl
      (fun b e' => if e'.1 < b.1 ∨ (e'.1 = b.1 ∧ e'.2.1 < b.2.1) then e' else b) b = r) :
    r.1 ≤ b.1 ∧ ∀ e ∈ rest, r.1 ≤ e.1 := by
  induction rest generalizing b with
  | nil => exact ⟨le_of_eq (congrArg Prod.fst h.symm), by simp⟩
  | cons e' rest' ih =>
    rw [List.foldl_cons] at h
    by_cases hc : e'.1 < b.1 ∨ (e'.1 = b.1 ∧ e'.2.1 < b.2.1)
    · rw [if_pos hc] at h
      obtain ⟨h1, h2⟩ := ih e' h
      have hle : e'.1 ≤ b.1 := by rcases hc with hc | ⟨hc, _⟩ <;> omega
      refine ⟨le_trans h1 hle, ?_⟩
      intro e he
      rcases List.mem_cons.mp he with he | he
      · subst he; exact h1
      · exact h2 e he
    · rw [if_neg hc] at h
      obtain ⟨h1, h2⟩ := ih b h
      push_neg at hc
      refine ⟨h1, ?_⟩
      intro e he
      rcases List.mem_cons.mp he with he | he
      · subst he
        omega
      · exact h2 e he

theorem pyMinCand_min (l : List (Nat × Nat × π)) (c : Nat × Nat × π)
    (h : pyMinCand l = some c) : ∀ e ∈ l, c.1 ≤ e.1 := by
  match l with
  | [] => simp [pyMinCand] at h
  | e0 :: rest =>
    simp only [pyMinCand, Option.some.injEq] at h
    obtain ⟨h1, h2⟩ := foldl_minfst_le rest e0 c h
    intro e he
    rcases List.mem_cons.mp he with he | he
    · subst he; exact h1
    · exact h2 e he

theorem mem_presentPairs [DecidableEq β] (p2r : List ((List β × List β) × Nat))
    (s : List (List β)) (p : List β × List β) :
    p ∈ presentPairs p2r s ↔ p ∈ adjPairs s ∧ ¬aLookup p2r p = none := by
  unfold presentPairs
  rw [mem_foldl_insSym]
  simp [List.mem_filter]

theorem foldl_minrank_spec [DecidableEq β] (p2r : List ((List β × List β) × Nat))
    (ps : List (List β × List β)) (b r : List β × List β)
    (h : ps.foldl (fun b q => if aLookupD p2r q 0 < aLookupD p2r b 0 then q else b) b = r) :
    (r = b ∨ r ∈ ps) ∧ aLookupD p2r r 0 ≤ aLookupD p2r b 0 ∧
      ∀ q ∈ ps, aLookupD p2r r 0 ≤ aLookupD p2r q 0 := by
  induction ps generalizing b with
  | nil =>
    rw [List.foldl_nil] at h
    subst h
    exact ⟨Or.inl rfl, le_rfl, by simp⟩
  | cons q0 ps' ih =>
    rw [List.foldl_cons] at h
    by_cases hc : aLookupD p2r q0 0 < aLookupD p2r b 0
    · rw [if_pos hc] at h
      obtain ⟨hm, h1, h2⟩ := ih q0 h
      refine ⟨?_, by omega, ?_⟩
      · rcases hm with hm | hm
        · exact Or.inr (by simp [hm])
        · exact Or.inr (by simp [hm])
      · intro q hq
        rcases List.mem_cons.mp hq with hq | hq
        · subst hq; exact h1
        · exact h2 q hq
    · rw [if_neg hc] at h
      obtain ⟨hm, h1, h2⟩ := ih b h
      refine ⟨?_, h1, ?_⟩
      · rcases hm with hm | hm
        · exact Or.inl hm
        · exact Or.inr (by simp [hm])
      · intro q hq
        rcases List.mem_cons.mp hq with hq | hq
        · subst hq; omega
        · exact h2 q hq

theorem specChoosePair_spec [DecidableEq β] (p2r : List ((List β × List β) × Nat))
    (s : List (List β)) (p : List β × List β)
    (h : specChoosePair p2r s = some p) :
    p ∈ presentPairs p2r s ∧
      ∀ q ∈ presentPairs p2r s, aLookupD p2r p 0 ≤ aLookupD p2r q 0 := by
  unfold specChoosePair at h
  rcases hpp : presentPairs p2r s with _ | ⟨p0, ps⟩
  · rw [hpp] at h; simp at h
  · rw [hpp] at h
    simp only [Option.some.injEq] at h
    obtain ⟨hm, h1, h2⟩ := foldl_minrank_spec p2r ps p0 p h
    constructor
    · rcases hm with hm | hm
      · simp [hm]
      · simp [hm]
    · intro q hq
      rcases List.mem_cons.mp hq with hq | hq
      · subst hq; exact h1
      · exact h2 q hq

theorem specChoosePair_none [DecidableEq β] (p2r : List ((List β × List β) × Nat))
    (s : List (List β)) (h : specChoosePair p2r s = none) :
    presentPairs p2r s = [] := by
  unfold specChoosePair at h
  rcases hpp : presentPairs p2r s with _ | ⟨p0, ps⟩
  · rfl
  · rw [hpp] at h; simp at h

theorem step_choice_eq [DecidableEq β] (ms : List (List β × List β))
    (s : List (List β)) :
    (pyMinCand (candTriples (buildRanks ms) 0 s) = none ∧
      specChoosePair (buildRanks ms) s = none) ∨
    (∃ c p, pyMinCand (candTriples (buildRanks ms) 0 s) = some c ∧
      specChoosePair (buildRanks ms) s = some p ∧ c.2.2 = p) := by
  rcases hm : pyMinCand (candTriples (buildRanks ms) 0 s) with _ | c
  · left
    refine ⟨rfl, ?_⟩
    have hempty := pyMinCand_eq_none _ hm
    rcases hsp : specChoosePair (buildRanks ms) s with _ | p
    · rfl
    · obtain ⟨hmem, _⟩ := specChoosePair_spec _ _ _ hsp
      rw [mem_presentPairs] at hmem
      obtain ⟨r, hl⟩ := Option.ne_none_iff_exists'.mp hmem.2
      obtain ⟨i, hi⟩ := candTriples_cover (buildRanks ms) 0 s p r hmem.1 hl
      rw [hempty] at hi
      simp at hi
  · right
    have hcm := pyMinCand_mem _ _ hm
    obtain ⟨hlook, hadj⟩ := candTriples_mem (buildRanks ms) 0 s c hcm
    have hpres : c.2.2 ∈ presentPairs (buildRanks ms) s := by
      rw [mem_presentPairs]
      exact ⟨hadj, by rw [hlook]; simp⟩
    rcases hsp : specChoosePair (buildRanks ms) s with _ | p
    · have := specChoosePair_none _ _ hsp
      rw [this] at hpres
      simp at hpres
    · obtain ⟨hpmem, hpmin⟩ := specChoosePair_spec _ _ _ hsp
      rw [mem_presentPairs] at hpmem
      obtain ⟨rp, hpl⟩ := Option.ne_none_iff_exists'.mp hpmem.2
      obtain ⟨i, hi⟩ := candTriples_cover (buildRanks ms) 0 s p rp hpmem.1 hpl
      have h1 : c.1 ≤ rp := pyMinCand_min _ _ hm (rp, i, p) hi
      have h2 : aLookupD (buildRanks ms) p 0 ≤ aLookupD (buildRanks ms) c.2.2 0 :=
        hpmin c.2.2 hpres
      rw [aLookupD, hpl, aLookupD, hlook] at h2
      simp at h2
      have hrr : rp = c.1 := by omega
      subst hrr
      exact ⟨c, p, rfl, rfl, buildRanks_inj ms c.2.2 p c.1 hlook hpl⟩

theorem segLoopF_eq_spec [DecidableEq β] (ms : List (List β × List β)) :
    ∀ (f : Nat) (s : List (List β)),
      segLoopF (buildRanks ms) f s = specSegLoopF (buildRanks ms) f s := by
  intro f
  induction f with
  | zero => intro s; rfl
  | succ f ih =>
    intro s
    rcases step_choice_eq ms s with ⟨h1, h2⟩ | ⟨c, p, h1, h2, h3⟩
    · simp only [segLoopF, specSegLoopF, h1, h2]
    · simp only [segLoopF, specSegLoopF, h1, h2, h3]
      exact ih _

theorem specSegLoopF_empty [DecidableEq β] (f : Nat) (s : List (List β)) :
    specSegLoopF ([] : List ((List β × List β) × Nat)) f s = s := by
  cases f with
  | zero => rfl
  | succ f =>
    have : specChoosePair ([] : List ((List β × List β) × Nat)) s = none := by
      unfold specChoosePair
      rcases hpp : presentPairs ([] : List ((List β × List β) × Nat)) s
        with _ | ⟨p0, ps⟩
      · rfl
      · have : p0 ∈ presentPairs ([] : List ((List β × List β) × Nat)) s := by
          rw [hpp]; simp
        rw [mem_presentPairs] at this
        simp [aLookup] at this
    simp only [specSegLoopF, this]

theorem segMerge_eq_specSegAll [DecidableEq β] (ms : List (List β × List β))
    (s : List (List β)) : segMerge (buildRanks ms) s = specSegAll (buildRanks ms) s := by
  by_cases hp : buildRanks ms = []
  · rw [segMerge, if_pos hp, specSegAll, hp, specSegLoopF_empty]
  · rw [segMerge, if_neg hp, specSegAll, segLoopF_eq_spec]

/-- Claim C2, amended: each iteration of the implementation's loop rewrites
every non-overlapping left-to-right occurrence of the lowest-ranked present
pair (not exactly one), so for every rank table derived from a merge list
its output coincides with the reference that chooses the present pair of
lowest rank, rewrites all its occurrences, and rescans — for both alphabet
variants. -/
theorem claim2_thm :
    (∀ (ms : List (List Char × List Char)) (s : List (List Char)),
      segMerge (buildRanks ms) s = specSegAll (buildRanks ms) s) ∧
    (∀ (ms : List (List Nat × List Nat)) (s : List (List Nat)),
      segMerge (buildRanks ms) s = specSegAll (buildRanks ms) s) :=
  ⟨fun ms s => segMerge_eq_specSegAll ms s, fun ms s => segMerge_eq_specSegAll ms s⟩

theorem utf8DecR_one (b0 : Nat) (r : List Nat) (h0 : b0 < 128) :
    utf8DecR (b0 :: r) = Char.ofNat b0 :: utf8DecR r := by
  rw [utf8DecR.eq_def]
  simp [h0]

theorem utf8DecR_two (b0 b1 : Nat) (r : List Nat) (h0 : 194 ≤ b0 ∧ b0 ≤ 223)
    (h1 : 128 ≤ b1 ∧ b1 ≤ 191) :
    utf8DecR (b0 :: b1 :: r) =
      Char.ofNat ((b0 - 192) * 64 + (b1 - 128)) :: utf8DecR r := by
  have c1 : ¬b0 < 128 := by omega
  rw [utf8DecR.eq_def]
  simp [c1, h0, h1]

theorem utf8DecR_three (b0 b1 b2 : Nat) (r : List Nat)
    (h0 : 224 ≤ b0 ∧ b0 ≤ 239)
    (hb1 : if b0 = 224 then 160 ≤ b1 ∧ b1 ≤ 191
      else if b0 = 237 then 128 ≤ b1 ∧ b1 ≤ 159 else 128 ≤ b1 ∧ b1 ≤ 191)
    (h2 : 128 ≤ b2 ∧ b2 ≤ 191) :
    utf8DecR (b0 :: b1 :: b2 :: r) =
      Char.ofNat ((b0 - 224) * 4096 + (b1 - 128) * 64 + (b2 - 128)) ::
        utf8DecR r := by
  have c1 : ¬b0 < 128 := by omega
  have c2 : ¬(194 ≤ b0 ∧ b0 ≤ 223) := by omega
  rw [utf8DecR.eq_def]
  simp [c1, c2, h0, hb1, h2]

theorem utf8DecR_four (b0 b1 b2 b3 : Nat) (r : List Nat)
    (h0 : 240 ≤ b0 ∧ b0 ≤ 244)
    (hb1 : if b0 = 240 then 144 ≤ b1 ∧ b1 ≤ 191
      else if b0 = 244 then 128 ≤ b1 ∧ b1 ≤ 143 else 128 ≤ b1 ∧ b1 ≤ 191)
    (h2 : 128 ≤ b2 ∧ b2 ≤ 191) (h3 : 128 ≤ b3 ∧ b3 ≤ 191) :
    utf8DecR (b0 :: b1 :: b2 :: b3 :: r) =
      Char.ofNat ((b0 - 240) * 262144 + (b1 - 128) * 4096 + (b2 - 128) * 64 +
        (b3 - 128)) :: utf8DecR r := by
  have c1 : ¬b0 < 128 := by omega
  have c2 : ¬(194 ≤ b0 ∧ b0 ≤ 223) := by omega
  have c3 : ¬(224 ≤ b0 ∧ b0 ≤ 239) := by omega
  rw [utf8DecR.eq_def]
  simp [c1, c2, c3, h0, hb1, h2, h3]

theorem utf8DecR_encChar (c : Char) (rest : List Nat) :
    utf8DecR (utf8EncChar c ++ rest) = c :: utf8DecR rest := by
  have hvalid : c.toNat < 55296 ∨ (57343 < c.toNat ∧ c.toNat < 1114112) := c.valid
  by_cases h1 : c.toNat < 128
  · rw [show utf8EncChar c = [c.toNat] from by simp [utf8EncChar, h1]]
    rw [List.cons_append, List.nil_append, utf8DecR_one _ _ h1, Char.ofNat_toNat]
  · by_cases h2 : c.toNat < 2048
    · rw [show utf8EncChar c = [192 + c.toNat / 64, 128 + c.toNat % 64] from by
        simp [utf8EncChar, h1, h2]]
      rw [List.cons_append, List.cons_append, List.nil_append,
        utf8DecR_two _ _ _ (by omega) (by omega)]
      have : (192 + c.toNat / 64 - 192) * 64 + (128 + c.toNat % 64 - 128) =
          c.toNat := by omega
      rw [this, Char.ofNat_toNat]
    · by_cases h3 : c.toNat < 65536
      · rw [show utf8EncChar c =
          [224 + c.toNat / 4096, 128 + c.toNat / 64 % 64, 128 + c.toNat % 64] from by
            simp [utf8EncChar, h1, h2, h3]]
        rw [List.cons_append, List.cons_append, List.cons_append, List.nil_append,
          utf8DecR_three _ _ _ _ (by omega) ?hb1 (by omega)]
        case hb1 =>
          rcases hvalid with hv | hv
          · split_ifs <;> omega
          · split_ifs <;> omega
        have : (224 + c.toNat / 4096 - 224) * 4096 +
            (128 + c.toNat / 64 % 64 - 128) * 64 + (128 + c.toNat % 64 - 128) =
            c.toNat := by omega
        rw [this, Char.ofNat_toNat]
      · have h4 : c.toNat < 1114112 := by
          rcases hvalid with hv | hv
          · omega
          · omega
        rw [show utf8EncChar c =
          [240 + c.toNat / 262144, 128 + c.toNat / 4096 % 64,
            128 + c.toNat / 64 % 64, 128 + c.toNat % 64] from by
              simp [utf8EncChar, h1, h2, h3]]
        rw [List.cons_append, List.cons_append, List.cons_append, List.cons_append,
          List.nil_append,
          utf8DecR_four _ _ _ _ _ (by omega) (by split_ifs <;> omega)
            (by omega) (by omega)]
        have : (240 + c.toNat / 262144 - 240) * 262144 +
            (128 + c.toNat / 4096 % 64 - 128) * 4096 +
            (128 + c.toNat / 64 % 64 - 128) * 64 + (128 + c.toNat % 64 - 128) =
            c.toNat := by omega
        rw [this, Char.ofNat_toNat]

theorem utf8_roundtrip (s : List Char) : utf8DecR (utf8Enc s) = s := by
  induction s with
  | nil => rfl
  | cons c r ih =>
    show utf8DecR ((List.map utf8EncChar (c :: r)).flatten) = c :: r
    rw [List.map_cons, List.flatten_cons, utf8DecR_encChar]
    rw [show (List.map utf8EncChar r).flatten = utf8Enc r from rfl, ih]

theorem flatten_map_sing (bs : List β) : (bs.map (fun b => [b])).flatten = bs := by
  induction bs with
  | nil => rfl
  | cons b r ih => simp [ih]

theorem segLoopF_flatten [DecidableEq β] (p2r : List ((List β × List β) × Nat)) :
    ∀ (f : Nat) (s : List (List β)), (segLoopF p2r f s).flatten = s.flatten := by
  intro f
  induction f with
  | zero => intro s; rfl
  | succ f ih =>
    intro s
    rcases hm : pyMinCand (candTriples p2r 0 s) with _ | c
    · rw [segLoopF, hm]
    · rw [segLoopF, hm, ih, mergePass_flatten]

theorem segMerge_flatten [DecidableEq β] (p2r : List ((List β × List β) × Nat))
    (s : List (List β)) : (segMerge p2r s).flatten = s.flatten := by
  by_cases hp : p2r = []
  · rw [segMerge, if_pos hp]
  · rw [segMerge, if_neg hp, segLoopF_flatten]

theorem byteEncodeBytes_flatten (st : ByteState) (bs : List Nat) :
    (byteEncodeBytes st bs).flatten = bs := by
  rw [byteEncodeBytes, segMerge_flatten, flatten_map_sing]

theorem decode_encode_tokens [DecidableEq τ] (t2i : List (τ × Nat))
    (i2t : List (Nat × τ))
    (hinv : ∀ t j, aLookup t2i t = some j → aLookup i2t j = some t)
    (u : Nat) (d : τ) :
    ∀ (toks : List τ), (∀ t ∈ toks, ¬aLookup t2i t = none) →
      (toks.map (fun t => aLookupD t2i t u)).map (fun j => aLookupD i2t j d) =
        toks := by
  intro toks
  induction toks with
  | nil => intro _; rfl
  | cons t r ih =>
    intro h
    obtain ⟨j, hj⟩ := Option.ne_none_iff_exists'.mp (h t (by simp))
    simp only [List.map_cons]
    rw [ih (fun q hq => h q (by simp [hq]))]
    have hhead : aLookupD i2t (aLookupD t2i t u) d = t := by
      simp only [aLookupD]
      rw [hj, Option.getD_some, hinv t j hj, Option.getD_some]
    rw [hhead]

theorem tokBytes_map_bs : ∀ (l : List (List Nat)),
    tokBytes (l.map BTok.bs) = some l := by
  intro l
  induction l with
  | nil => rfl
  | cons b r ih => simp [tokBytes, ih]

theorem byteTrain_inv (nl : List Char → List Char) (st : ByteState)
    (corpus : List (List Char)) (t : BTok) (j : Nat)
    (h : aLookup (byteTrain nl st corpus).token_to_id t = some j) :
    aLookup (byteTrain nl st corpus).id_to_token j = some t := by
  rw [byteTrain_token_to_id] at h
  rw [byteTrain_id_to_token]
  exact t2i_then_i2t _ t j h

theorem charTrain_inv (nl : List Char → List Char) (st : CharState)
    (corpus : List (List Char)) (t : List Char) (j : Nat)
    (h : aLookup (charTrain nl st corpus).token_to_id t = some j) :
    aLookup (charTrain nl st corpus).id_to_token j = some t := by
  rw [charTrain_token_to_id] at h
  rw [charTrain_id_to_token]
  exact t2i_then_i2t _ t j h

theorem byte_roundtrip (nl : List Char → List Char) (st : ByteState)
    (corpus : List (List Char)) (text : List Char)
    (H : ∀ s ∈ byteEncodeBytes (byteTrain nl st corpus)
        (utf8Enc (pyNormalize nl text)),
      ¬aLookup (byteTrain nl st corpus).token_to_id (BTok.bs s) = none) :
    ∃ ids, byteEncode nl (byteTrain nl st corpus) text = .ok ids ∧
      byteDecode (byteTrain nl st corpus) ids = .ok (pyNormalize nl text) := by
  obtain ⟨u, hu⟩ := Option.isSome_iff_exists.mp
    (byteTrain_sp_some nl st corpus "<unk>" (by simp [BYTE_SPECIALS]))
  have hne : ¬(byteTrain nl st corpus).token_to_id = [] :=
    aLookup_ne_nil _ _ (by rw [hu]; rfl)
  have hne2 := byteTrain_i2t_ne_nil nl st corpus
  have henc : byteEncode nl (byteTrain nl st corpus) text = .ok
      ((BTok.sp "<bos>" :: (byteEncodeBytes (byteTrain nl st corpus)
        (utf8Enc (pyNormalize nl text))).map BTok.bs ++ [BTok.sp "<eos>"]).map
          (fun t => aLookupD (byteTrain nl st corpus).token_to_id t u)) := by
    simp only [byteEncode, hne, if_false, hu]
  refine ⟨_, henc, ?_⟩
  simp only [byteDecode, hne2, if_false]
  have hall : ∀ t ∈ BTok.sp "<bos>" ::
      (byteEncodeBytes (byteTrain nl st corpus)
        (utf8Enc (pyNormalize nl text))).map BTok.bs ++ [BTok.sp "<eos>"],
      ¬aLookup (byteTrain nl st corpus).token_to_id t = none := by
    intro t ht
    rcases List.mem_cons.mp ht with ht | ht
    · subst ht
      intro hc
      have := byteTrain_sp_some nl st corpus "<bos>" (by simp [BYTE_SPECIALS])
      rw [hc] at this
      simp at this
    · rcases List.mem_append.mp ht with ht | ht
      · obtain ⟨s, hs, hst⟩ := List.mem_map.mp ht
        subst hst
        exact H s hs
      · rw [List.mem_singleton] at ht
        subst ht
        intro hc
        have := byteTrain_sp_some nl st corpus "<eos>" (by simp [BYTE_SPECIALS])
        rw [hc] at this
        simp at this
  rw [decode_encode_tokens (byteTrain nl st corpus).token_to_id
    (byteTrain nl st corpus).id_to_token (byteTrain_inv nl st corpus) u
    (BTok.sp "<unk>") _ hall]
  have hfil : List.filter (fun t => decide (¬t ∈ BYTE_SPECIALS))
      ((BTok.sp "<bos>" :: (byteEncodeBytes (byteTrain nl st corpus)
        (utf8Enc (pyNormalize nl text))).map BTok.bs) ++ [BTok.sp "<eos>"]) =
      (byteEncodeBytes (byteTrain nl st corpus)
        (utf8Enc (pyNormalize nl text))).map BTok.bs := by
    rw [List.filter_append, filter_drop_head _ _ _ (by decide),
      show List.filter (fun t => decide (¬t ∈ BYTE_SPECIALS)) [BTok.sp "<eos>"] =
        [] from by decide,
      List.filter_eq_self.mpr ?hkeep, List.append_nil]
    case hkeep =>
      intro t ht
      obtain ⟨s, _, hst⟩ := List.mem_map.mp ht
      subst hst
      simp [BYTE_SPECIALS]
  simp only [hfil, tokBytes_map_bs, byteEncodeBytes_flatten, utf8_roundtrip]

theorem chunks_inv {atoms segs : List (List β)} (h : Chunks atoms segs) :
    (atoms = [] ∧ segs = []) ∨
    ∃ g rest tail, g ≠ [] ∧ atoms = g ++ rest ∧ segs = g.flatten :: tail ∧
      Chunks rest tail := by
  cases h with
  | nil => exact Or.inl ⟨rfl, rfl⟩
  | cons g hg hrest => exact Or.inr ⟨g, _, _, hg, rfl, rfl, hrest⟩

theorem chunks_self : ∀ (atoms : List (List β)), Chunks atoms atoms := by
  intro atoms
  induction atoms with
  | nil => exact Chunks.nil
  | cons a rest ih =>
    have h := Chunks.cons [a] (by simp) ih
    simpa using h

theorem mergePass_cons2_pos [DecidableEq β] (a b x y : List β)
    (rest : List (List β)) (h : x = a ∧ y = b) :
    mergePass a b (x :: y :: rest) = (a ++ b) :: mergePass a b rest := by
  simp [mergePass, h]

theorem mergePass_cons2_neg [DecidableEq β] (a b x y : List β)
    (rest : List (List β)) (h : ¬(x = a ∧ y = b)) :
    mergePass a b (x :: y :: rest) = x :: mergePass a b (y :: rest) := by
  simp [mergePass, h]

theorem chunks_mergePass [DecidableEq β] (a b : List β) :
    ∀ (n : Nat) (atoms segs : List (List β)), segs.length ≤ n →
      Chunks atoms segs → Chunks atoms (mergePass a b segs) := by
  intro n
  induction n with
  | zero =>
    intro atoms segs hlen h
    have : segs = [] := List.length_eq_zero.mp (by omega)
    subst this
    simpa [mergePass] using h
  | succ n ih =>
    intro atoms segs hlen h
    rcases chunks_inv h with ⟨hA, hS⟩ | ⟨g, rest, tail, hg, hA, hS, hrest⟩
    · subst hA
      subst hS
      exact Chunks.nil
    · subst hA
      subst hS
      rcases chunks_inv hrest with ⟨hA2, hS2⟩ | ⟨g2, rest2, tail2, hg2, hA2, hS2, hrest2⟩
      · subst hA2
        subst hS2
        rw [show mergePass a b [g.flatten] = [g.flatten] from by simp [mergePass]]
        exact Chunks.cons g hg Chunks.nil
      · subst hA2
        subst hS2
        simp only [List.length_cons] at hlen
        by_cases hc : g.flatten = a ∧ g2.flatten = b
        · rw [mergePass_cons2_pos a b _ _ _ hc]
          have hrec := ih rest2 tail2 (by omega) hrest2
          have hcons := Chunks.cons (g ++ g2) (by simp [hg]) hrec
          rw [List.flatten_append, hc.1, hc.2] at hcons
          simpa [List.append_assoc] using hcons
        · rw [mergePass_cons2_neg a b _ _ _ hc]
          refine Chunks.cons g hg (ih _ _ ?_ hrest)
          simp only [List.length_cons]
          omega

theorem chunks_segLoopF [DecidableEq β] (p2r : List ((List β × List β) × Nat)) :
    ∀ (f : Nat) (atoms s : List (List β)), Chunks atoms s →
      Chunks atoms (segLoopF p2r f s) := by
  intro f
  induction f with
  | zero => intro atoms s h; exact h
  | succ f ih =>
    intro atoms s h
    rcases hm : pyMinCand (candTriples p2r 0 s) with _ | c
    · rw [segLoopF, hm]
      exact h
    · rw [segLoopF, hm]
      exact ih _ _ (chunks_mergePass _ _ s.length _ _ le_rfl h)

theorem chunks_segMerge [DecidableEq β] (p2r : List ((List β × List β) × Nat))
    (s : List (List β)) : Chunks s (segMerge p2r s) := by
  by_cases hp : p2r = []
  · rw [segMerge, if_pos hp]
    exact chunks_self s
  · rw [segMerge, if_neg hp]
    exact chunks_segLoopF p2r s.length s s (chunks_self s)

theorem append_decomp_sing : ∀ (g : List (List Char)) (u : List Char)
    (rest : List (List Char)), rest ≠ [] →
    g ++ rest = u.map (fun c => [c]) ++ [eowL] →
    ∃ u1 u2, u = u1 ++ u2 ∧ g = u1.map (fun c => [c]) ∧
      rest = u2.map (fun c => [c]) ++ [eowL] := by
  intro g
  induction g with
  | nil =>
    intro u rest _ h
    exact ⟨[], u, rfl, rfl, by simpa using h⟩
  | cons x g' ih =>
    intro u rest hrest h
    cases u with
    | nil =>
      simp only [List.map_nil, List.nil_append, List.cons_append] at h
      have hx : x = eowL := (List.cons_eq_cons.mp h).1
      have htail : g' ++ rest = [] := (List.cons_eq_cons.mp h).2
      rcases List.append_eq_nil.mp htail with ⟨_, h2⟩
      exact absurd h2 hrest
    | cons c u' =>
      simp only [List.map_cons, List.cons_append] at h
      have hx : x = [c] := (List.cons_eq_cons.mp h).1
      have htail : g' ++ rest = u'.map (fun c => [c]) ++ [eowL] :=
        (List.cons_eq_cons.mp h).2
      obtain ⟨u1, u2, hu, hg, hr⟩ := ih u' rest hrest htail
      exact ⟨c :: u1, u2, by rw [hu, List.cons_append], by rw [hg, hx, List.map_cons],
        hr⟩

theorem flatten_map_sing_char (u : List Char) :
    (u.map (fun c => [c])).flatten = u := flatten_map_sing u

theorem chunks_word_decomp : ∀ (n : Nat) (u : List Char) (segs : List (List Char)),
    u.length ≤ n → Chunks (u.map (fun c => [c]) ++ [eowL]) segs →
    ∃ ss tl, segs = ss ++ [tl ++ eowL] ∧ u = ss.flatten ++ tl := by
  intro n
  induction n with
  | zero =>
    intro u segs hlen h
    have hu : u = [] := List.length_eq_zero.mp (by omega)
    subst hu
    rcases chunks_inv h with ⟨hA, _⟩ | ⟨g, rest, tail, hg, hA, hS, hrest⟩
    · simp at hA
    · simp only [List.map_nil, List.nil_append] at hA
      rcases rest with _ | ⟨r0, rest'⟩
      · rw [List.append_nil] at hA
        subst hA
        have htail : tail = [] := by
          rcases chunks_inv hrest with ⟨_, h2⟩ | ⟨g2, r2, t2, hg2, hA2, _, _⟩
          · exact h2
          · exact absurd (List.append_eq_nil.mp hA2.symm).1 hg2
        subst htail
        exact ⟨[], [], by simp [hS], by simp⟩
      · have := congrArg List.length hA
        simp at this
        have hg1 : g = [] := List.length_eq_zero.mp (by omega)
        exact absurd hg1 hg
  | succ n ih =>
    intro u segs hlen h
    rcases chunks_inv h with ⟨hA, _⟩ | ⟨g, rest, tail, hg, hA, hS, hrest⟩
    · rcases List.append_eq_nil.mp hA with ⟨_, h2⟩
      simp at h2
    · rcases rest with _ | ⟨r0, rest'⟩
      · rw [List.append_nil] at hA
        have htail : tail = [] := by
          rcases chunks_inv hrest with ⟨_, h2⟩ | ⟨g2, r2, t2, hg2, hA2, _, _⟩
          · exact h2
          · exact absurd (List.append_eq_nil.mp hA2.symm).1 hg2
        subst htail
        refine ⟨[], u, ?_, by simp⟩
        rw [hS, ← hA, List.flatten_append, flatten_map_sing_char]
        simp
      · obtain ⟨u1, u2, hu, hgu, hru⟩ :=
          append_decomp_sing g u (r0 :: rest') (by simp) hA.symm
        have hu1ne : u1 ≠ [] := by
          intro hc
          rw [hc] at hgu
          exact hg (by simpa using hgu)
        have hlen2 : u2.length ≤ n := by
          have := congrArg List.length hu
          simp at this
          have : u1.length ≥ 1 := by
            cases u1 with
            | nil => exact absurd rfl hu1ne
            | cons _ _ => simp
          omega
        obtain ⟨ss, tl, hsegs, hu2⟩ := ih u2 tail hlen2 (by rw [← hru]; exact hrest)
        refine ⟨g.flatten :: ss, tl, ?_, ?_⟩
        · rw [hS, hsegs, List.cons_append]
        · rw [hu, hu2, hgu, List.flatten_cons, flatten_map_sing_char,
            List.append_assoc]

theorem seqAt_append_self : ∀ (pat b : List Char), seqAt pat (pat ++ b) = true := by
  intro pat
  induction pat with
  | nil => intro b; rfl
  | cons p ps ih => intro b; simp [seqAt, ih]

theorem hasSubSeq_mid : ∀ (a pat b : List Char),
    hasSubSeq pat (a ++ (pat ++ b)) = true := by
  intro a
  induction a with
  | nil =>
    intro pat b
    rw [List.nil_append]
    cases pat with
    | nil =>
      cases b with
      | nil => rfl
      | cons c cs => simp [hasSubSeq, seqAt]
    | cons p ps =>
      show (seqAt (p :: ps) (p :: (ps ++ b)) ||
        hasSubSeq (p :: ps) (ps ++ b)) = true
      rw [show seqAt (p :: ps) (p :: (ps ++ b)) = true from
        seqAt_append_self (p :: ps) b, Bool.true_or]
  | cons c a' ih =>
    intro pat b
    show (seqAt pat (c :: (a' ++ (pat ++ b))) ||
      hasSubSeq pat (a' ++ (pat ++ b))) = true
    rw [ih pat b, Bool.or_true]

theorem flatten_mem_decomp (s : List Char) (ss : List (List Char)) (h : s ∈ ss) :
    ∃ pre post, ss.flatten = pre ++ s ++ post := by
  obtain ⟨l1, l2, hl⟩ := List.append_of_mem h
  subst hl
  exact ⟨l1.flatten, l2.flatten, by simp⟩

theorem isSuffix_exists (s : List Char) (h : eowL.isSuffixOf s = true) :
    ∃ x, s = x ++ eowL := by
  rw [List.isSuffixOf_iff_suffix] at h
  obtain ⟨t, ht⟩ := h
  exact ⟨t, ht.symm⟩

theorem eow_suffix_tl (tl : List Char) : eowL.isSuffixOf (tl ++ eowL) = true := by
  rw [List.isSuffixOf_iff_suffix]
  exact List.suffix_append tl eowL

theorem strip_tl (tl : List Char) :
    (tl ++ eowL).take ((tl ++ eowL).length - 4) = tl := by
  have h : (tl ++ eowL).length - 4 = tl.length := by simp [eowL]
  rw [h, List.take_left]

theorem noSuffix_of_noSub (u : List Char) (ss : List (List Char)) (tl : List Char)
    (hu : u = ss.flatten ++ tl) (hno : hasSubSeq eowL u = false) :
    ∀ s ∈ ss, eowL.isSuffixOf s = false := by
  intro s hs
  cases hsf : eowL.isSuffixOf s with
  | false => rfl
  | true =>
    obtain ⟨x, hx⟩ := isSuffix_exists s hsf
    obtain ⟨pre, post, hflat⟩ := flatten_mem_decomp s ss hs
    have : hasSubSeq eowL u = true := by
      rw [hu, hflat, hx]
      rw [show pre ++ (x ++ eowL) ++ post ++ tl =
        (pre ++ x) ++ (eowL ++ (post ++ tl)) from by simp [List.append_assoc]]
      exact hasSubSeq_mid (pre ++ x) eowL (post ++ tl)
    rw [this] at hno
    exact Bool.noConfusion hno

theorem reconWords_cons_yes (cur s : List Char) (ts : List (List Char))
    (h : eowL.isSuffixOf s = true) :
    reconWords cur (s :: ts) =
      (cur ++ s.take (s.length - 4)) :: reconWords [] ts := by
  rw [reconWords.eq_def]
  simp [h]

theorem reconWords_cons_no (cur s : List Char) (ts : List (List Char))
    (h : eowL.isSuffixOf s = false) :
    reconWords cur (s :: ts) = reconWords (cur ++ s) ts := by
  rw [reconWords.eq_def]
  simp [h]

theorem reconWords_word (ss : List (List Char)) (tl : List Char)
    (rest : List (List Char)) :
    ∀ (cur : List Char), (∀ s ∈ ss, eowL.isSuffixOf s = false) →
    reconWords cur ((ss ++ [tl ++ eowL]) ++ rest) =
      (cur ++ (ss.flatten ++ tl)) :: reconWords [] rest := by
  induction ss with
  | nil =>
    intro cur _
    rw [List.nil_append, List.singleton_append,
      reconWords_cons_yes _ _ _ (eow_suffix_tl tl), strip_tl, List.flatten_nil,
      List.nil_append]
  | cons s ss' ih =>
    intro cur hno
    rw [show ((s :: ss') ++ [tl ++ eowL]) ++ rest =
        s :: ((ss' ++ [tl ++ eowL]) ++ rest) from by simp,
      reconWords_cons_no _ _ _ (hno s (by simp)),
      ih (cur ++ s) (fun q hq => hno q (by simp [hq])), List.flatten_cons]
    simp [List.append_assoc]

theorem foldl_append_eq (f : α → List γ) :
    ∀ (ws : List α) (acc : List γ),
      ws.foldl (fun acc w => acc ++ f w) acc = acc ++ (ws.map f).flatten := by
  intro ws
  induction ws with
  | nil => intro acc; simp
  | cons w ws' ih => intro acc; simp [ih, List.append_assoc]

theorem reconWords_concat (p2r : List ((List Char × List Char) × Nat)) :
    ∀ (ws : List (List Char)), (∀ w ∈ ws, hasSubSeq eowL w = false) →
      reconWords []
        ((ws.map (fun w => segMerge p2r (charWordSyms w))).flatten) = ws := by
  intro ws
  induction ws with
  | nil => intro _; rfl
  | cons w ws' ih =>
    intro hws
    obtain ⟨ss, tl, hsegs, hw⟩ := chunks_word_decomp w.length w
      (segMerge p2r (charWordSyms w)) le_rfl
      (by
        have := chunks_segMerge p2r (charWordSyms w)
        exact this)
    have hno := noSuffix_of_noSub w ss tl hw (hws w (by simp))
    rw [List.map_cons, List.flatten_cons, hsegs,
      show (ss ++ [tl ++ eowL]) ++ (ws'.map
        (fun w => segMerge p2r (charWordSyms w))).flatten =
        (ss ++ [tl ++ eowL]) ++ (ws'.map
          (fun w => segMerge p2r (charWordSyms w))).flatten from rfl,
      reconWords_word ss tl _ [] hno, ih (fun q hq => hws q (by simp [hq]))]
    rw [List.nil_append, ← hw]

theorem pySplit_space (c : Char) (r : List Char) (h : pyIsSpace c = true) :
    pySplit (c :: r) = pySplit r := by
  rw [pySplit.eq_def]
  simp [h]

theorem pySplit_one (c : Char) (h : pyIsSpace c = false) :
    pySplit [c] = [[c]] := by
  rw [pySplit.eq_def]
  simp [h]

theorem pySplit_ns_sp (c d : Char) (r : List Char) (hc : pyIsSpace c = false)
    (hd : pyIsSpace d = true) :
    pySplit (c :: d :: r) = [c] :: pySplit (d :: r) := by
  rw [pySplit.eq_def]
  simp [hc, hd]

theorem pySplit_ns_ns (c d : Char) (r : List Char) (hc : pyIsSpace c = false)
    (hd : pyIsSpace d = false) :
    pySplit (c :: d :: r) =
      match pySplit (d :: r) with
      | [] => [[c]]
      | w :: ws => (c :: w) :: ws := by
  rw [pySplit.eq_def]
  simp [hc, hd]

theorem pySplit_props : ∀ (l : List Char), ∀ w ∈ pySplit l,
    ¬w = [] ∧ ∀ c ∈ w, pyIsSpace c = false := by
  intro l
  induction l with
  | nil => intro w hw; simp [pySplit] at hw
  | cons c r ih =>
    intro w hw
    cases hc : pyIsSpace c with
    | true =>
      rw [pySplit_space c r hc] at hw
      exact ih w hw
    | false =>
      cases r with
      | nil =>
        rw [pySplit_one c hc] at hw
        rw [List.mem_singleton] at hw
        subst hw
        refine ⟨by simp, ?_⟩
        intro q hq
        rw [List.mem_singleton] at hq
        subst hq
        exact hc
      | cons d r' =>
        cases hd : pyIsSpace d with
        | true =>
          rw [pySplit_ns_sp c d r' hc hd] at hw
          rcases List.mem_cons.mp hw with hw | hw
          · subst hw
            refine ⟨by simp, ?_⟩
            intro q hq
            rw [List.mem_singleton] at hq
            subst hq
            exact hc
          · exact ih w hw
        | false =>
          rw [pySplit_ns_ns c d r' hc hd] at hw
          rcases hps : pySplit (d :: r') with _ | ⟨w0, ws0⟩
          · rw [hps] at hw
            simp only [List.mem_singleton] at hw
            subst hw
            refine ⟨by simp, ?_⟩
            intro q hq
            rw [List.mem_singleton] at hq
            subst hq
            exact hc
          · rw [hps] at hw
            rcases List.mem_cons.mp hw with hw | hw
            · subst hw
              have hw0 := ih w0 (by rw [hps]; simp)
              refine ⟨by simp, ?_⟩
              intro q hq
              rcases List.mem_cons.mp hq with hq | hq
              · subst hq; exact hc
              · exact hw0.2 q hq
            · exact ih w (by rw [hps]; simp [hw])

theorem pySplit_word : ∀ (w : List Char), ¬w = [] →
    (∀ c ∈ w, pyIsSpace c = false) → pySplit w = [w] := by
  intro w
  induction w with
  | nil => intro h _; exact absurd rfl h
  | cons c w' ih =>
    intro _ hns
    have hc : pyIsSpace c = false := hns c (by simp)
    cases w' with
    | nil => exact pySplit_one c hc
    | cons d w'' =>
      have hd : pyIsSpace d = false := hns d (by simp)
      rw [pySplit_ns_ns c d w'' hc hd,
        ih (by simp) (fun q hq => hns q (by simp [hq]))]

theorem pySplit_word_append : ∀ (w : List Char), ¬w = [] →
    (∀ c ∈ w, pyIsSpace c = false) → ∀ (t : List Char),
    pySplit (w ++ ' ' :: t) = w :: pySplit t := by
  intro w
  induction w with
  | nil => intro h _; exact absurd rfl h
  | cons c w' ih =>
    intro _ hns t
    have hc : pyIsSpace c = false := hns c (by simp)
    cases w' with
    | nil =>
      rw [List.singleton_append, pySplit_ns_sp c ' ' t hc (by decide),
        pySplit_space ' ' t (by decide)]
    | cons d w'' =>
      have hd : pyIsSpace d = false := hns d (by simp)
      have hstep : pySplit ((c :: d :: w'') ++ ' ' :: t) =
          match pySplit (d :: (w'' ++ ' ' :: t)) with
          | [] => [[c]]
          | w :: ws => (c :: w) :: ws := by
        rw [show (c :: d :: w'') ++ ' ' :: t = c :: d :: (w'' ++ ' ' :: t) from
          by simp]
        exact pySplit_ns_ns c d _ hc hd
      rw [hstep, show d :: (w'' ++ ' ' :: t) = (d :: w'') ++ ' ' :: t from
        by simp, ih (by simp) (fun q hq => hns q (by simp [hq])) t]

theorem joinSpace_cons2 (w x : List Char) (r : List (List Char)) :
    joinSpace (w :: x :: r) = w ++ ' ' :: joinSpace (x :: r) := rfl

theorem pySplit_joinSpace : ∀ (ws : List (List Char)),
    (∀ w ∈ ws, ¬w = [] ∧ ∀ c ∈ w, pyIsSpace c = false) →
    pySplit (joinSpace ws) = ws := by
  intro ws
  induction ws with
  | nil => intro _; rfl
  | cons w ws' ih =>
    intro hp
    cases ws' with
    | nil =>
      show pySplit (joinSpace [w]) = [w]
      rw [show joinSpace [w] = w from rfl]
      exact pySplit_word w (hp w (by simp)).1 (hp w (by simp)).2
    | cons x r =>
      rw [joinSpace_cons2,
        pySplit_word_append w (hp w (by simp)).1 (hp w (by simp)).2,
        ih (fun q hq => hp q (by simp [hq]))]

theorem char_roundtrip (nl : List Char → List Char) (st : CharState)
    (corpus : List (List Char)) (text : List Char)
    (H : ∀ w ∈ pySplit (pyNormalize nl text),
      ∀ s ∈ charEncodeWord (charTrain nl st corpus) w,
        ¬aLookup (charTrain nl st corpus).token_to_id s = none)
    (H3 : ∀ w ∈ pySplit (pyNormalize nl text), hasSubSeq eowL w = false)
    (H4 : ∀ w ∈ pySplit (pyNormalize nl text),
      ∀ s ∈ charEncodeWord (charTrain nl st corpus) w, ¬s ∈ CHAR_SPECIALS) :
    ∃ ids out, charEncode nl (charTrain nl st corpus) text = .ok ids ∧
      charDecode (charTrain nl st corpus) ids = .ok out ∧
      pySplit out = pySplit (pyNormalize nl text) := by
  obtain ⟨u, hu, henc⟩ := charEncode_unk_map nl st corpus text
  have hne2 := charTrain_i2t_ne_nil nl st corpus
  have hfilw : (pySplit (pyNormalize nl text)).filter
      (fun w => decide (¬w = [])) = pySplit (pyNormalize nl text) :=
    List.filter_eq_self.mpr (fun w hw => by
      simpa using (pySplit_props _ w hw).1)
  rw [hfilw, foldl_append_eq
    (fun w => charEncodeWord (charTrain nl st corpus) w) _ [],
    List.nil_append] at henc
  refine ⟨_, joinSpace (pySplit (pyNormalize nl text)), henc, ?_, ?_⟩
  · simp only [charDecode, hne2, if_false]
    have hall : ∀ t ∈ (bosL :: ((pySplit (pyNormalize nl text)).map
        (fun w => charEncodeWord (charTrain nl st corpus) w)).flatten) ++ [eosL],
        ¬aLookup (charTrain nl st corpus).token_to_id t = none := by
      intro t ht
      rcases List.mem_append.mp ht with ht | ht
      · rcases List.mem_cons.mp ht with ht | ht
        · subst ht
          intro hc
          have := charTrain_bos_some nl st corpus
          rw [hc] at this
          simp at this
        · obtain ⟨l, hl, htl⟩ := List.mem_flatten.mp ht
          obtain ⟨w, hw, hwl⟩ := List.mem_map.mp hl
          subst hwl
          exact H w hw t htl
      · rw [List.mem_singleton] at ht
        subst ht
        intro hc
        have := charTrain_eos_some nl st corpus
        rw [hc] at this
        simp at this
    rw [decode_encode_tokens (charTrain nl st corpus).token_to_id
      (charTrain nl st corpus).id_to_token (charTrain_inv nl st corpus) u
      unkL _ hall]
    have hfil : List.filter (fun t => decide (¬t ∈ CHAR_SPECIALS))
        ((bosL :: ((pySplit (pyNormalize nl text)).map
          (fun w => charEncodeWord (charTrain nl st corpus) w)).flatten) ++
            [eosL]) =
        ((pySplit (pyNormalize nl text)).map
          (fun w => charEncodeWord (charTrain nl st corpus) w)).flatten := by
      rw [List.filter_append, filter_drop_head _ _ _ (by decide),
        show List.filter (fun t => decide (¬t ∈ CHAR_SPECIALS)) [eosL] = []
          from by decide,
        List.filter_eq_self.mpr ?hkeep, List.append_nil]
      case hkeep =>
        intro t ht
        obtain ⟨l, hl, htl⟩ := List.mem_flatten.mp ht
        obtain ⟨w, hw, hwl⟩ := List.mem_map.mp hl
        subst hwl
        simpa using H4 w hw t htl
    simp only [hfil]
    simp only [charEncodeWord]
    rw [reconWords_concat (charTrain nl st corpus).pair2rank _ H3]
  · rw [pySplit_joinSpace _ (fun w hw => pySplit_props _ w hw)]

/-- Claim C3, amended: with all produced symbols in the trained vocabulary,
`decode(encode(text))` reproduces `normalize(text)` exactly in the byte
variant; in the character variant the whitespace-separated word sequence is
reproduced provided additionally that no normalized word contains the
end-of-word marker `"</w>"` as a substring and no produced symbol collides
with a special token. -/
theorem claim3_thm :
    (∀ (nl : List Char → List Char) (st : ByteState) (corpus : List (List Char))
        (text : List Char),
      (∀ s ∈ byteEncodeBytes (byteTrain nl st corpus)
          (utf8Enc (pyNormalize nl text)),
        ¬aLookup (byteTrain nl st corpus).token_to_id (BTok.bs s) = none) →
      ∃ ids, byteEncode nl (byteTrain nl st corpus) text = .ok ids ∧
        byteDecode (byteTrain nl st corpus) ids = .ok (pyNormalize nl text)) ∧
    (∀ (nl : List Char → List Char) (st : CharState) (corpus : List (List Char))
        (text : List Char),
      (∀ w ∈ pySplit (pyNormalize nl text),
        ∀ s ∈ charEncodeWord (charTrain nl st corpus) w,
          ¬aLookup (charTrain nl st corpus).token_to_id s = none) →
      (∀ w ∈ pySplit (pyNormalize nl text), hasSubSeq eowL w = false) →
      (∀ w ∈ pySplit (pyNormalize nl text),
        ∀ s ∈ charEncodeWord (charTrain nl st corpus) w, ¬s ∈ CHAR_SPECIALS) →
      ∃ ids out, charEncode nl (charTrain nl st corpus) text = .ok ids ∧
        charDecode (charTrain nl st corpus) ids = .ok out ∧
        pySplit out = pySplit (pyNormalize nl text)) :=
  ⟨fun nl st corpus text H => byte_roundtrip nl st corpus text H,
   fun nl st corpus text H H3 H4 => char_roundtrip nl st corpus text H H3 H4⟩

/-- Witness for claim C3 at concrete inputs: on corpus `["ab ab"]` with
budget 2, the text `"ab"` round-trips in both variants. -/
theorem claim3_witness :
    (∃ ids, byteEncode id (byteTrain id (byteInit 2) ["ab ab".data]) "ab".data =
        .ok ids ∧
      byteDecode (byteTrain id (byteInit 2) ["ab ab".data]) ids =
        .ok (pyNormalize id "ab".data)) ∧
    (∃ ids out,
      charEncode id (charTrain id (charInit 2) ["ab ab".data]) "ab".data =
        .ok ids ∧
      charDecode (charTrain id (charInit 2) ["ab ab".data]) ids = .ok out ∧
      pySplit out = pySplit (pyNormalize id "ab".data)) :=
  ⟨claim3_thm.1 id (byteInit 2) ["ab ab".data] "ab".data (by decide),
   claim3_thm.2 id (charInit 2) ["ab ab".data] "ab".data (by decide) (by decide)
     (by decide)⟩
